import Mathlib

/-!
Findkind: a verification development.

A shallow embedding of the Go sources of `findkind`
(`internal/manifest/yaml.go`, `internal/util/parallel.go`,
`internal/scan/fs.go`, `internal/scan/git.go`, `internal/config/config.go`)
and theorems about it.

Conventions of the embedding.

* A Go `string` or `[]byte` is the list of its bytes (`GoString`), every byte a
  natural number below 256.  Nothing is assumed about the bytes forming valid
  UTF-8.
* `for i := range s` over a string visits the byte index of the first byte of
  every UTF-8 encoded code point, as the Go language defines it (an invalid
  encoding counts as one code point of width one).  `stringRange` is that
  index sequence; the width of each step is the one `runtime.decoderune`
  computes.
* Behaviour of libraries the repository imports (the YAML decoder, Unicode
  lower-casing, git, the file system) enters as explicit parameters.
* A computation that may fail to return carries fuel and yields an `Option`;
  `none` stands for a call that does not return.
* A goroutine started by `eg.Go` is a unit of work that runs without
  interleaving with the others: either at once, before its starter continues,
  or when the starter reaches `Wait` of the group.  The world chooses between
  the two at every start.  A goroutine of a group whose `Wait` is not reached
  is recorded as left in flight.
* The directory walk is given by the sequence of arguments it hands to its
  callback.
-/

namespace Findkind

/-! ## Go strings -/

/-- A Go `string` / `[]byte` value, as the list of its bytes. -/
abbrev GoString := List Nat

/-- The bytes of an ASCII literal. -/
def ascii (s : String) : GoString := s.data.map Char.toNat

/-- Indexing `s[i]` for an index that is in range. -/
def byteAt (s : GoString) (i : Nat) : Nat := s.getD i 0

/-- Is `c` a UTF-8 continuation byte, `locb <= c && c <= hicb` in the Go runtime. -/
def isCont (c : Nat) : Bool := decide (0x80 ≤ c) && decide (c ≤ 0xBF)

/-- Width in bytes that `runtime.decoderune` assigns to the encoding that
starts at the head of `s` (`pos - k` in the runtime source): 2, 3 or 4 for a
well-formed multi-byte encoding, 1 in every other case. -/
def decoderuneWidth (s : GoString) : Nat :=
  match s with
  | [] => 1
  | s0 :: rest =>
    if 0xC0 ≤ s0 ∧ s0 < 0xE0 then
      match rest with
      | s1 :: _ =>
        if isCont s1 then
          let r := ((s0 &&& 0x1F) <<< 6) ||| (s1 &&& 0x3F)
          if 0x7F < r then 2 else 1
        else 1
      | _ => 1
    else if 0xE0 ≤ s0 ∧ s0 < 0xF0 then
      match rest with
      | s1 :: s2 :: _ =>
        if isCont s1 && isCont s2 then
          let r := ((s0 &&& 0x0F) <<< 12) ||| ((s1 &&& 0x3F) <<< 6) ||| (s2 &&& 0x3F)
          if 0x7FF < r ∧ ¬ (0xD800 ≤ r ∧ r ≤ 0xDFFF) then 3 else 1
        else 1
      | _ => 1
    else if 0xF0 ≤ s0 ∧ s0 < 0xF8 then
      match rest with
      | s1 :: s2 :: s3 :: _ =>
        if isCont s1 && isCont s2 && isCont s3 then
          let r := ((s0 &&& 0x07) <<< 18) ||| ((s1 &&& 0x3F) <<< 12) |||
            ((s2 &&& 0x3F) <<< 6) ||| (s3 &&& 0x3F)
          if 0xFFFF < r ∧ r ≤ 0x10FFFF then 4 else 1
        else 1
      | _ => 1
    else 1

/-- Step of a `range` loop over a string: a byte below `utf8.RuneSelf` advances
the index by one, any other byte by the width `decoderune` reports. -/
def runeWidth (s : GoString) : Nat :=
  match s with
  | [] => 1
  | s0 :: _ => if s0 < 0x80 then 1 else decoderuneWidth s

/-- Indices visited by a `range` loop over the remaining bytes `s`, the first of
which has index `i`; `skip` bytes still belong to the code point visited last. -/
def rangeFrom : Nat → Nat → GoString → List Nat
  | _, _, [] => []
  | 0, i, c :: rest => i :: rangeFrom (runeWidth (c :: rest) - 1) (i + 1) rest
  | skip + 1, i, _ :: rest => rangeFrom skip (i + 1) rest

/-- The values `i` takes in `for i := range s`. -/
def stringRange (s : GoString) : List Nat := rangeFrom 0 0 s

/-! ## internal/manifest/yaml.go: helpers -/

/-- Body of the loop of `splitAPIVersion`, run over the remaining indices. -/
def splitAPIVersionLoop (av : GoString) : List Nat → GoString × GoString
  | [] => ([], av)
  | i :: is =>
    if byteAt av i = 47 then (av.take i, av.drop (i + 1))
    else splitAPIVersionLoop av is

/-- The function `splitAPIVersion(av)`: `for i := range av`, return `av[:i], av[i+1:]` at
the first visited index holding `'/'` (byte 47), else `"", av`. -/
def splitAPIVersion (av : GoString) : GoString × GoString :=
  splitAPIVersionLoop av (stringRange av)

/-- The byte-level case fold of `equalsFold`: `if 'A' <= c && c <= 'Z'` then
`c += 'a' - 'A'` in `uint8` arithmetic. -/
def foldByte (c : Nat) : Nat := if 65 ≤ c ∧ c ≤ 90 then (c + 32) % 256 else c

/-- Body of the loop of `equalsFold`, run over the remaining indices. -/
def equalsFoldLoop (a b : GoString) : List Nat → Bool
  | [] => true
  | i :: is =>
    let ai := foldByte (byteAt a i)
    let bi := foldByte (byteAt b i)
    if ai ≠ bi then false else equalsFoldLoop a b is

/-- The function `equalsFold(a, b)`: unequal lengths give false; otherwise
`for i := range a` compares the folded bytes `a[i]` and `b[i]`. -/
def equalsFold (a b : GoString) : Bool :=
  if a.length ≠ b.length then false else equalsFoldLoop a b (stringRange a)

/-- The comparison the specification asks of the kind filter: mapping the ASCII
letters `A`..`Z` to lower case, byte by byte. -/
def asciiLower (c : Nat) : Nat := if 65 ≤ c ∧ c ≤ 90 then c + 32 else c

/-- The first `k` bytes of `s` exist and are continuation bytes. -/
def ContPrefix (k : Nat) (s : GoString) : Prop :=
  k ≤ s.length ∧ ∀ x ∈ s.take k, isCont x = true

/-! ## internal/manifest/yaml.go: data -/

/-- The struct `Meta`; a field absent from the document keeps the zero value `""`. -/
structure Meta where
  APIVersion : GoString
  Kind : GoString
deriving DecidableEq, Repr

/-- Outcome of one call `dec.Decode(&m)` on a fresh `m`. -/
inductive DecodeResult where
  /-- The call returned `nil` and filled `m`. -/
  | doc (m : Meta)
  /-- The call returned `io.EOF`. -/
  | eof
  /-- The call returned an error other than `io.EOF`. -/
  | failed
deriving DecidableEq, Repr

/-! ## Library functions used by the repository -/

/-- Behaviour of imported libraries that the embedding does not fix. -/
structure Lib where
  /-- The decoder `yaml.NewDecoder(bytes.NewReader(data))`: the outcome of its
  `n`-th call of `Decode` (counted from 0). -/
  yamlDecode : GoString → Nat → DecodeResult
  /-- The result of `bytes.Map(unicode.ToLower, s)` (resp. `strings.Map`), the
  path `ToLower` takes for input with a byte of `utf8.RuneSelf` or above. -/
  unicodeLower : GoString → GoString

/-- The functions `bytes.ToLower` and `strings.ToLower`: input made of ASCII bytes only is
lower-cased byte by byte; any other input goes through Unicode lower-casing. -/
def ToLower (lib : Lib) (s : GoString) : GoString :=
  if s.all (fun c => decide (c < 0x80)) then s.map foldByte else lib.unicodeLower s

/-- The functions `bytes.HasPrefix` / `strings.HasPrefix`. -/
def HasPrefix (s sub : GoString) : Bool := sub.isPrefixOf s

/-- The functions `bytes.Contains` / `strings.Contains`: `sub` occurs in `s` at some offset. -/
def Contains : GoString → GoString → Bool
  | [], sub => HasPrefix [] sub
  | c :: s, sub => HasPrefix (c :: s) sub || Contains s sub

/-! ## internal/manifest/yaml.go: Match -/

/-- The wildcard filter `"*"`. -/
def star : GoString := [42]

/-- Body of the `for` loop of `Match`, entered before the `n`-th call of
`dec.Decode`; `none` when the fuel does not suffice to reach a `return`. -/
def MatchLoop (dec : Nat → DecodeResult) (wantGroup wantVersion wantKind : GoString) :
    Nat → Nat → Option Bool
  | 0, _ => none
  | fuel + 1, n =>
    match dec n with
    | DecodeResult.eof => some false
    | DecodeResult.failed => MatchLoop dec wantGroup wantVersion wantKind fuel (n + 1)
    | DecodeResult.doc m =>
      if !equalsFold m.Kind wantKind then
        MatchLoop dec wantGroup wantVersion wantKind fuel (n + 1)
      else if wantGroup = star ∧ wantVersion = star then some true
      else
        let gv := splitAPIVersion m.APIVersion
        if wantGroup ≠ star ∧ wantGroup ≠ gv.1 then
          MatchLoop dec wantGroup wantVersion wantKind fuel (n + 1)
        else if wantVersion ≠ star ∧ wantVersion ≠ gv.2 then
          MatchLoop dec wantGroup wantVersion wantKind fuel (n + 1)
        else some true

/-- The function `manifest.Match(data, wantGroup, wantVersion, wantKind)`. -/
def Match (lib : Lib) (fuel : Nat) (data wantGroup wantVersion wantKind : GoString) :
    Option Bool :=
  if !Contains (ToLower lib data) (ascii "kind:") then some false
  else MatchLoop (lib.yamlDecode data) wantGroup wantVersion wantKind fuel 0

/-- The test the specification states for one decoded document, with the kind
compared after lower-casing ASCII letters byte by byte. -/
def docSatisfies (m : Meta) (wantGroup wantVersion wantKind : GoString) : Prop :=
  m.Kind.map asciiLower = wantKind.map asciiLower ∧
  (wantGroup = star ∨ wantGroup = (splitAPIVersion m.APIVersion).1) ∧
  (wantVersion = star ∨ wantVersion = (splitAPIVersion m.APIVersion).2)

/-- The test the loop body of `Match` applies to one decoded document. -/
def docAccepted (m : Meta) (wantGroup wantVersion wantKind : GoString) : Prop :=
  equalsFold m.Kind wantKind = true ∧
  (wantGroup = star ∨ wantGroup = (splitAPIVersion m.APIVersion).1) ∧
  (wantVersion = star ∨ wantVersion = (splitAPIVersion m.APIVersion).2)

/-- The library behaviour with the given decoder; Unicode lower-casing, which
the inputs below do not reach, is the identity. -/
def libOf (decode : GoString → Nat → DecodeResult) : Lib :=
  { yamlDecode := decode, unicodeLower := fun s => s }

/-- A decoder that yields the listed outcomes and then reports end of input. -/
def decoderOf (outcomes : List DecodeResult) : Nat → DecodeResult :=
  fun n => outcomes.getD n DecodeResult.eof

/-- The decoder of a content with a YAML syntax error in its first document, as
`gopkg.in/yaml.v3` behaves: the parser keeps its error, so the first call of
`Decode` and every later one return that error, none returns `io.EOF`. -/
def stuckDecoder : Nat → DecodeResult := fun _ => DecodeResult.failed

instance (m : Meta) (wantGroup wantVersion wantKind : GoString) :
    Decidable (docAccepted m wantGroup wantVersion wantKind) := by
  unfold docAccepted; infer_instance

instance (m : Meta) (wantGroup wantVersion wantKind : GoString) :
    Decidable (docSatisfies m wantGroup wantVersion wantKind) := by
  unfold docSatisfies; infer_instance

/-! ## internal/util/parallel.go -/

/-- The struct `Semaphore`: its channel `ch`, a buffered channel of `struct{}`
values, is described by its capacity and by the number of values it holds. -/
structure Semaphore where
  cap : Nat
  len : Nat
deriving DecidableEq, Repr

/-- The constructor `NewSemaphore(max)`: `make(chan struct{}, max)`, an empty channel of capacity `max`. -/
def NewSemaphore (max : Nat) : Semaphore := { cap := max, len := 0 }

/-- The method `TryAcquire`: the `select` sends when the buffer has room and returns true,
and takes the `default` branch otherwise. -/
def Semaphore.TryAcquire (s : Semaphore) : Bool × Semaphore :=
  if s.len < s.cap then (true, { s with len := s.len + 1 }) else (false, s)

/-- The method `Release`: the receive `<-s.ch` takes one value out of the buffer; on an
empty buffer it blocks, which is `none`. -/
def Semaphore.Release (s : Semaphore) : Option Semaphore :=
  if 0 < s.len then some { s with len := s.len - 1 } else none

/-- A call on a semaphore. -/
inductive SemCall where
  | tryAcquire
  | release
deriving DecidableEq, Repr

/-- State of a run of calls: the semaphore, the number of `TryAcquire` calls
that returned true and the number of `Release` calls that returned. -/
structure SemTrace where
  sem : Semaphore
  acquired : Nat
  released : Nat
deriving DecidableEq, Repr

/-- One call; `none` when a `Release` finds no slot to give back and blocks. -/
def SemTrace.call (t : SemTrace) : SemCall → Option SemTrace
  | SemCall.tryAcquire =>
    let r := t.sem.TryAcquire
    some { sem := r.2, acquired := if r.1 then t.acquired + 1 else t.acquired,
           released := t.released }
  | SemCall.release =>
    match t.sem.Release with
    | some s => some { sem := s, acquired := t.acquired, released := t.released + 1 }
    | none => none

/-- The calls `calls`, in the order given, made from the state `t`. -/
def semRunFrom (t : SemTrace) : List SemCall → Option SemTrace
  | [] => some t
  | c :: cs => (t.call c).bind (fun t1 => semRunFrom t1 cs)

/-- A sequence of calls on a semaphore built by `NewSemaphore(max)`. -/
def semRun (max : Nat) (calls : List SemCall) : Option SemTrace :=
  semRunFrom { sem := NewSemaphore max, acquired := 0, released := 0 } calls

/-- Slots held after a run: successful `TryAcquire` calls not yet released. -/
def SemTrace.held (t : SemTrace) : Nat := t.acquired - t.released

/-! ## internal/scan/fs.go: the result bucket -/

/-- The struct `bucket` (its mutex serialises the calls of `add`): the slice
`order` and the key set of the map `set`. -/
structure bucket where
  order : List GoString
  set : GoString → Bool

/-- The constructor `newBucket()`: no records, an empty map. -/
def newBucket : bucket := { order := [], set := fun _ => false }

/-- The method `b.add(hit)`: when `hit` is no key of `set`, enter it and append it to `order`. -/
def bucket.add (b : bucket) (hit : GoString) : bucket :=
  if b.set hit then b
  else { order := b.order ++ [hit], set := fun k => if k = hit then true else b.set k }

/-- The distinct elements of a list in the order of their first occurrence. -/
def firstOccurrences : List GoString → List GoString
  | [] => []
  | x :: xs => x :: (firstOccurrences xs).filter (fun y => decide (y ≠ x))

/-- Position of the first occurrence of `h` in `hits` (the length when absent). -/
def firstIndex (h : GoString) : List GoString → Nat
  | [] => 0
  | x :: xs => if x = h then 0 else firstIndex h xs + 1

/-! ## internal/scan/git.go: branchMatches -/

/-- The `for` loop of `branchMatches` over the remaining words. -/
def branchMatchesLoop (lb : GoString) : List GoString → Bool
  | [] => false
  | w :: ws => if Contains lb w then true else branchMatchesLoop lb ws

/-- The function `branchMatches(branch, words)`. -/
def branchMatches (lib : Lib) (branch : GoString) (words : List GoString) : Bool :=
  if words.length = 0 then true
  else branchMatchesLoop (ToLower lib branch) words

/-! ## internal/config/config.go: Config -/

/-- The struct `Config`.  `MaxProcs` is an `int` in the source; it is the
capacity handed to `make(chan struct{}, max)`, so only its non-negative values
let `NewSemaphore` return. -/
structure Config where
  Root : GoString
  Group : GoString
  Version : GoString
  Kind : GoString
  BranchWords : List GoString
  MaxProcs : Nat
  NoGit : Bool
  Stream : Bool
  NullTerm : Bool
  JSONLines : Bool
  Quiet : Bool
  OutputJSON : Bool
  Verbose : Bool
deriving DecidableEq, Repr

/-! ## The world outside the program -/

/-- A Go `error` value: the `*exec.ExitError` of a command that exited with a
non-zero code, or any other error. -/
inductive GoError where
  | exit (code : Nat)
  | other (msg : String)
deriving DecidableEq, Repr

/-- One argument of the directory walk's callback: `path`, `d.IsDir()`,
`d.Name()` and `walkErr`. -/
structure WalkEvent where
  path : GoString
  isDir : Bool
  name : GoString
  walkErr : Option GoError
deriving DecidableEq, Repr

/-- The file system, git and the scheduler.  Every answer may depend on the
moment of the call, the first argument, which counts the calls made so far. -/
structure World where
  /-- The function `os.ReadFile(path)`. -/
  readFile : Nat → GoString → Except GoError GoString
  /-- The call `exec.CommandContext(ctx, "git", args...).Output()`. -/
  git : Nat → List GoString → Except GoError GoString
  /-- The tokens a `bufio.Scanner` yields on the given bytes, and `scanner.Err()`. -/
  scanLines : GoString → List GoString × Option GoError
  /-- The function `strings.TrimSpace`. -/
  trimSpace : GoString → GoString
  /-- The function `filepath.Dir`. -/
  dir : GoString → GoString
  /-- Scheduling of a goroutine started by `eg.Go` at the given moment: true
  when it runs to completion before its starter continues, false when it is
  still in flight until its group's `Wait`. -/
  finishesAtOnce : Nat → Bool
  /-- The error `enc.Encode(res.order)` returns, if any. -/
  encodeErr : List GoString → Option GoError

/-! ## internal/scan/fs.go and internal/scan/git.go -/

/-- One write to the writer `out`. -/
inductive Chunk where
  /-- The line `json.NewEncoder(out).Encode(struct{Path string}{record})` writes. -/
  | jsonPath (record : GoString)
  /-- The bytes of one `out.Write(b)`. -/
  | bytes (b : GoString)
  /-- The line `fmt.Fprintln(out, record)` writes. -/
  | line (record : GoString)
  /-- The indented array `enc.Encode(res.order)` writes. -/
  | jsonArray (records : List GoString)
deriving DecidableEq, Repr

/-- A unit of work started as a goroutine by `eg.Go`. -/
inductive Task where
  /-- The goroutine of `Run` that calls `scanRepo` on `repo`. -/
  | repo (repo : GoString)
  /-- The goroutine of `Run` that calls `inspectFile` on `path`. -/
  | file (path : GoString)
  /-- The goroutine of `scanRepo` that calls `scanBranch`. -/
  | branch (repo branch : GoString)
deriving DecidableEq, Repr

/-- An `errgroup.Group`: the goroutines it started that have not finished, and
the first error a finished goroutine returned. -/
structure Group where
  pending : List Task
  err : Option GoError
deriving DecidableEq, Repr

/-- Everything the scan reads and writes: what has been written to `out`, the
bucket `res` (`nil` in the streaming regime), the semaphore `sem`, the count of
calls made to the world, and two records kept for the statements below: the
`(repo, branch)` pairs `scanBranch` was called with, and the goroutines that a
function left in flight by returning without its group's `Wait`. -/
structure ScanState where
  out : List Chunk
  res : Option bucket
  sem : Semaphore
  clock : Nat
  scanned : List (GoString × GoString)
  inflight : List Task

/-- The world has been called once more. -/
def ScanState.tick (st : ScanState) : ScanState := { st with clock := st.clock + 1 }

/-- The first error stays. -/
def firstErr (a b : Option GoError) : Option GoError :=
  match a with
  | some e => some e
  | none => b

/-- The function `put(out, cfg, record)`: one record in the format `cfg` asks for. -/
def put (out : List Chunk) (cfg : Config) (record : GoString) : List Chunk :=
  if cfg.JSONLines then out ++ [Chunk.jsonPath record]
  else if cfg.NullTerm then out ++ [Chunk.bytes record, Chunk.bytes [0]]
  else out ++ [Chunk.line record]

/-- The call `res.add(hit)` on the shared bucket; on a `nil` bucket the call panics. -/
def ScanState.addHit (st : ScanState) (hit : GoString) : Option ScanState :=
  match st.res with
  | some b => some { st with res := some (b.add hit) }
  | none => none

/-- The function `filepath.Ext(path)`, scanning from the last byte: the suffix from the last
`'.'` of the last path element, `""` when a `'/'` comes first or there is none. -/
def ExtLoop : GoString → GoString → GoString
  | [], _ => []
  | c :: r, acc =>
    if c = 47 then [] else if c = 46 then c :: acc else ExtLoop r (c :: acc)

/-- The function `filepath.Ext(path)`. -/
def Ext (path : GoString) : GoString := ExtLoop path.reverse []

/-- The function `isYAML(path)`. -/
def isYAML (lib : Lib) (path : GoString) : Bool :=
  let ext := ToLower lib (Ext path)
  decide (ext = ascii ".yaml") || decide (ext = ascii ".yml")

/-- The function `inspectFile(out, path, cfg, res)`. -/
def inspectFile (lib : Lib) (w : World) (fuel : Nat) (path : GoString) (cfg : Config)
    (st : ScanState) : Option (ScanState × Option GoError) :=
  match w.readFile st.clock path with
  | Except.error e => some (st.tick, some e)
  | Except.ok data =>
    match Match lib fuel data cfg.Group cfg.Version cfg.Kind with
    | none => none
    | some false => some (st.tick, none)
    | some true =>
      if cfg.Stream && !cfg.OutputJSON then
        some ({ st.tick with out := put st.out cfg path }, none)
      else
        match st.tick.addHit path with
        | none => none
        | some st1 => some (st1, none)

/-- The function `bytes.Split(s, []byte{sep})` for a one-byte separator; `cur` is the piece
being read. -/
def SplitLoop (sep : Nat) : GoString → GoString → List GoString
  | [], cur => [cur]
  | c :: s, cur => if c = sep then cur :: SplitLoop sep s [] else SplitLoop sep s (cur ++ [c])

/-- The function `bytes.Split(s, []byte{sep})`. -/
def Split (s : GoString) (sep : Nat) : List GoString := SplitLoop sep s []

/-- The loop of `scanBranch` over the paths `git grep` listed. -/
def scanBranchLoop (lib : Lib) (w : World) (fuel : Nat) (repo branch : GoString) (cfg : Config) :
    List GoString → ScanState → Option ScanState
  | [], st => some st
  | p :: ps, st =>
    if p.length = 0 then scanBranchLoop lib w fuel repo branch cfg ps st
    else
      match w.git st.clock [ascii "-C", repo, ascii "show", branch ++ ascii ":" ++ p] with
      | Except.error _ => scanBranchLoop lib w fuel repo branch cfg ps st.tick
      | Except.ok blob =>
        match Match lib fuel blob cfg.Group cfg.Version cfg.Kind with
        | none => none
        | some false => scanBranchLoop lib w fuel repo branch cfg ps st.tick
        | some true =>
          let hit := repo ++ ascii ":" ++ branch ++ ascii ":" ++ p
          if cfg.Stream && !cfg.OutputJSON then
            scanBranchLoop lib w fuel repo branch cfg ps
              { st.tick with out := put st.out cfg hit }
          else
            match st.tick.addHit hit with
            | none => none
            | some st1 => scanBranchLoop lib w fuel repo branch cfg ps st1

/-- The function `scanBranch(ctx, out, repo, branch, cfg, res)`. -/
def scanBranch (lib : Lib) (w : World) (fuel : Nat) (repo branch : GoString) (cfg : Config)
    (st : ScanState) : Option (ScanState × Option GoError) :=
  let st0 := { st with scanned := st.scanned ++ [(repo, branch)] }
  let grepArgs := [ascii "-C", repo, ascii "grep", ascii "-I", ascii "-l", ascii "-z",
    ascii "-i", ascii "-e", ascii "kind:[[:space:]]*" ++ cfg.Kind ++ ascii "\\b",
    branch, ascii "--", ascii "*.yaml", ascii "*.yml"]
  match w.git st0.clock grepArgs with
  | Except.error (GoError.exit 1) => some (st0.tick, none)
  | Except.error e => some (st0.tick, some e)
  | Except.ok outb =>
    match scanBranchLoop lib w fuel repo branch cfg (Split outb 0) st0.tick with
    | none => none
    | some st1 => some (st1, none)

/-- The loop of `listBranches` over the scanned lines. -/
def listBranchesLoop (w : World) : List GoString → List GoString
  | [] => []
  | text :: rest =>
    let v := w.trimSpace text
    if v ≠ [] ∧ !Contains v (ascii " -> ") then v :: listBranchesLoop w rest
    else listBranchesLoop w rest

/-- The function `listBranches(ctx, repo)`: the branches and the error returned. -/
def listBranches (w : World) (now : Nat) (repo : GoString) : List GoString × Option GoError :=
  match w.git now [ascii "-C", repo, ascii "for-each-ref",
      ascii "--exclude=refs/remotes/*/HEAD", ascii "--format=%(refname:short)",
      ascii "refs/heads", ascii "refs/remotes"] with
  | Except.error e => ([], some e)
  | Except.ok out => (listBranchesLoop w (w.scanLines out).1, (w.scanLines out).2)

/-- Release of the slot a goroutine holds, `defer sem.Release()`. -/
def ScanState.release (st : ScanState) : Option ScanState :=
  match st.sem.Release with
  | some s => some { st with sem := s }
  | none => none

/-- The goroutine `scanRepo` starts for a branch: `scanBranch`, then the
deferred `sem.Release()`. -/
def branchTask (lib : Lib) (w : World) (fuel : Nat) (repo branch : GoString) (cfg : Config)
    (st : ScanState) : Option (ScanState × Option GoError) :=
  match scanBranch lib w fuel repo branch cfg st with
  | none => none
  | some (st1, e) =>
    match st1.release with
    | none => none
    | some st2 => some (st2, e)

/-- The call `eg.Wait()` of the group of `scanRepo`: the goroutines in flight run to
completion; the first error is returned. -/
def waitBranches (lib : Lib) (w : World) (fuel : Nat) (repo : GoString) (cfg : Config) :
    List GoString → Option GoError → ScanState → Option (ScanState × Option GoError)
  | [], err, st => some (st, err)
  | br :: rest, err, st =>
    match branchTask lib w fuel repo br cfg st with
    | none => none
    | some (st1, e) => waitBranches lib w fuel repo cfg rest (firstErr err e) st1

/-- The `for` loop of `scanRepo`; `pending` and `err` are the state of its
errgroup.  The third component of the result is the error of an early
`return err`, when the loop took one. -/
def scanRepoLoop (lib : Lib) (w : World) (fuel : Nat) (repo : GoString) (cfg : Config) :
    List GoString → List GoString → Option GoError → ScanState →
      Option (ScanState × List GoString × Option GoError × Option GoError)
  | [], pending, err, st => some (st, pending, err, none)
  | br :: rest, pending, err, st =>
    if !branchMatches lib br cfg.BranchWords then
      scanRepoLoop lib w fuel repo cfg rest pending err st
    else
      let r := st.sem.TryAcquire
      let st0 := { st with sem := r.2 }
      if r.1 then
        if w.finishesAtOnce st0.clock then
          match branchTask lib w fuel repo br cfg st0.tick with
          | none => none
          | some (st1, e) => scanRepoLoop lib w fuel repo cfg rest pending (firstErr err e) st1
        else scanRepoLoop lib w fuel repo cfg rest (pending ++ [br]) err st0.tick
      else
        match scanBranch lib w fuel repo br cfg st0 with
        | none => none
        | some (st1, some e) => some (st1, pending, err, some e)
        | some (st1, none) => scanRepoLoop lib w fuel repo cfg rest pending err st1

/-- The function `scanRepo(ctx, out, repo, cfg, sem, res)`. -/
def scanRepo (lib : Lib) (w : World) (fuel : Nat) (repo : GoString) (cfg : Config)
    (st : ScanState) : Option (ScanState × Option GoError) :=
  match listBranches w st.clock repo with
  | (_, some e) => some (st.tick, some e)
  | (branches, none) =>
    match scanRepoLoop lib w fuel repo cfg branches [] none st.tick with
    | none => none
    | some (st1, pending, _, some e) =>
      some ({ st1 with inflight := st1.inflight ++ pending.map (Task.branch repo) }, some e)
    | some (st1, pending, err, none) => waitBranches lib w fuel repo cfg pending err st1

/-- The body of a goroutine `Run` starts, then its deferred `sem.Release()`. -/
def runTask (lib : Lib) (w : World) (fuel : Nat) (cfg : Config) (t : Task) (st : ScanState) :
    Option (ScanState × Option GoError) :=
  let r := match t with
    | Task.repo repo => scanRepo lib w fuel repo cfg st
    | Task.file path => inspectFile lib w fuel path cfg st
    | Task.branch repo branch => scanBranch lib w fuel repo branch cfg st
  match r with
  | none => none
  | some (st1, e) =>
    match st1.release with
    | none => none
    | some st2 => some (st2, e)

/-- The call `eg.Go(f)` in `Run`, `sem.TryAcquire()` having returned true. -/
def egGo (lib : Lib) (w : World) (fuel : Nat) (cfg : Config) (t : Task) (g : Group)
    (st : ScanState) : Option (ScanState × Group) :=
  if w.finishesAtOnce st.clock then
    match runTask lib w fuel cfg t st.tick with
    | none => none
    | some (st1, e) => some (st1, { g with err := firstErr g.err e })
  else some (st.tick, { g with pending := g.pending ++ [t] })

/-- The call `eg.Wait()` in `Run`: the goroutines in flight run to completion; the
first error is returned. -/
def egWait (lib : Lib) (w : World) (fuel : Nat) (cfg : Config) :
    List Task → Option GoError → ScanState → Option (ScanState × Option GoError)
  | [], err, st => some (st, err)
  | t :: rest, err, st =>
    match runTask lib w fuel cfg t st with
    | none => none
    | some (st1, e) => egWait lib w fuel cfg rest (firstErr err e) st1

/-- What the callback of the walk returns. -/
inductive WalkRet where
  | nil
  | skipDir
  | err (e : GoError)
deriving DecidableEq, Repr

/-- The closure `walkFn` of `Run`. -/
def walkFn (lib : Lib) (w : World) (fuel : Nat) (cfg : Config) (ev : WalkEvent) (g : Group)
    (st : ScanState) : Option (ScanState × Group × WalkRet) :=
  match ev.walkErr with
  | some e => some (st, g, WalkRet.err e)
  | none =>
    if ev.isDir && decide (ev.name = ascii ".git") && !cfg.NoGit then
      let repo := w.dir ev.path
      let r := st.sem.TryAcquire
      let st0 := { st with sem := r.2 }
      if r.1 then
        match egGo lib w fuel cfg (Task.repo repo) g st0 with
        | none => none
        | some (st1, g1) => some (st1, g1, WalkRet.skipDir)
      else
        match scanRepo lib w fuel repo cfg st0 with
        | none => none
        | some (st1, some e) => some (st1, g, WalkRet.err e)
        | some (st1, none) => some (st1, g, WalkRet.skipDir)
    else if !ev.isDir && isYAML lib ev.path then
      let r := st.sem.TryAcquire
      let st0 := { st with sem := r.2 }
      if r.1 then
        match egGo lib w fuel cfg (Task.file ev.path) g st0 with
        | none => none
        | some (st1, g1) => some (st1, g1, WalkRet.nil)
      else
        match inspectFile lib w fuel ev.path cfg st0 with
        | none => none
        | some (st1, some e) => some (st1, g, WalkRet.err e)
        | some (st1, none) => some (st1, g, WalkRet.nil)
    else some (st, g, WalkRet.nil)

/-- The call `filepath.WalkDir(cfg.Root, walkFn)` on a tree whose traversal hands the
callback the arguments `events` one after the other, for as long as the
callback returns `nil` or `filepath.SkipDir`; the first other error the
callback returns ends the walk and is the error of the walk. -/
def WalkDir (lib : Lib) (w : World) (fuel : Nat) (cfg : Config) :
    List WalkEvent → Group → ScanState → Option (ScanState × Group × Option GoError)
  | [], g, st => some (st, g, none)
  | ev :: evs, g, st =>
    match walkFn lib w fuel cfg ev g st with
    | none => none
    | some (st1, g1, WalkRet.err e) => some (st1, g1, some e)
    | some (st1, g1, _) => WalkDir lib w fuel cfg evs g1 st1

/-- The `return` statement of `Run` an error came from. -/
inductive RunError where
  /-- The statement `return err` after `filepath.WalkDir`. -/
  | walk (e : GoError)
  /-- The statement `return err` after `eg.Wait()`. -/
  | wait (e : GoError)
  /-- The statement `return enc.Encode(res.order)`. -/
  | encode (e : GoError)
deriving DecidableEq, Repr

/-- What is known when `Run` returns: the bytes written to `out` so far, the
error returned, whether `eg.Wait()` had been called and had returned, the
goroutines started and still in flight, the records of the bucket (`res.order`,
when `res` is not `nil`), the calls of `scanBranch`. -/
structure RunResult where
  out : List Chunk
  err : Option RunError
  joined : Bool
  inflight : List Task
  records : Option (List GoString)
  scanned : List (GoString × GoString)
deriving DecidableEq, Repr

/-- The function `Run(ctx, out, cfg)`, the walk of `cfg.Root` delivering `events`. -/
def Run (lib : Lib) (w : World) (fuel : Nat) (events : List WalkEvent) (cfg : Config) :
    Option RunResult :=
  let sem := NewSemaphore cfg.MaxProcs
  let res := if !cfg.Stream || cfg.OutputJSON then some newBucket else none
  let st0 : ScanState :=
    { out := [], res := res, sem := sem, clock := 0, scanned := [], inflight := [] }
  match WalkDir lib w fuel cfg events { pending := [], err := none } st0 with
  | none => none
  | some (st1, g, some e) =>
    some { out := st1.out, err := some (RunError.walk e), joined := false,
           inflight := st1.inflight ++ g.pending, records := st1.res.map bucket.order,
           scanned := st1.scanned }
  | some (st1, g, none) =>
    match egWait lib w fuel cfg g.pending g.err st1 with
    | none => none
    | some (st2, some e) =>
      some { out := st2.out, err := some (RunError.wait e), joined := true,
             inflight := st2.inflight, records := st2.res.map bucket.order,
             scanned := st2.scanned }
    | some (st2, none) =>
      match st2.res with
      | some b =>
        if cfg.OutputJSON then
          some { out := st2.out ++ [Chunk.jsonArray b.order],
                 err := (w.encodeErr b.order).map RunError.encode, joined := true,
                 inflight := st2.inflight, records := some b.order,
                 scanned := st2.scanned }
        else
          some { out := b.order.foldl (fun o line => put o cfg line) st2.out, err := none,
                 joined := true, inflight := st2.inflight, records := some b.order,
                 scanned := st2.scanned }
      | none =>
        some { out := st2.out, err := none, joined := true, inflight := st2.inflight,
               records := none, scanned := st2.scanned }


/-! ## A small world for the scenarios -/

/-- A library behaviour for the scenarios: the decoder finds one document of
kind `Pod` in the content `kind: Pod` and no document in any other content;
Unicode lower-casing is not exercised. -/
def scenarioLib : Lib :=
  { yamlDecode := fun data =>
      if data = ascii "kind: Pod\n" then
        decoderOf [DecodeResult.doc { APIVersion := [], Kind := ascii "Pod" }]
      else decoderOf []
    unicodeLower := fun s => s }

/-- A world for the scenarios: every file reads as `kind: Pod`; the repository
has the branches `main` and `feature/foo`; `git grep` lists `m.yaml` on every
branch and `git show` prints `kind: Pod`; goroutines finish at once exactly
when `eager` says so. -/
def scenarioWorld (eager : Bool) : World :=
  { readFile := fun _ _ => Except.ok (ascii "kind: Pod\n")
    git := fun _ args =>
      if args.getD 2 [] = ascii "for-each-ref" then Except.ok (ascii "main\nfeature/foo\n")
      else if args.getD 2 [] = ascii "grep" then Except.ok (ascii "m.yaml" ++ [0])
      else Except.ok (ascii "kind: Pod\n")
    scanLines := fun out => ((Split out 10).filter (fun l => decide (l ≠ [])), none)
    trimSpace := fun s => s
    dir := fun p => p.take (p.length - 5)
    finishesAtOnce := fun _ => eager
    encodeErr := fun _ => none }

/-- The configuration of the scenarios: kind `Pod`, any group and version,
four workers. -/
def scenarioConfig (words : List GoString) (stream : Bool) : Config :=
  { Root := ascii "root", Group := star, Version := star, Kind := ascii "Pod",
    BranchWords := words, MaxProcs := 4, NoGit := false, Stream := stream,
    NullTerm := false, JSONLines := false, Quiet := false, OutputJSON := false,
    Verbose := false }

/-- A walk that meets the file `root/a.yaml` and then fails to read the
directory `root/b`. -/
def failingWalk : List WalkEvent :=
  [ { path := ascii "root", isDir := true, name := ascii "root", walkErr := none },
    { path := ascii "root/a.yaml", isDir := false, name := ascii "a.yaml", walkErr := none },
    { path := ascii "root/b", isDir := true, name := ascii "b", walkErr := none },
    { path := ascii "root/b", isDir := true, name := ascii "b",
      walkErr := some (GoError.other "permission denied") } ]

/-! ## internal/config/config.go: ParseFlags -/

/-- A panic of the package `flag` while a flag is being defined. -/
inductive FlagPanic where
  /-- The panic `flag %q begins with -`. -/
  | beginsWithDash (name : GoString)
  /-- The panic `flag %q contains =`. -/
  | containsEquals (name : GoString)
  /-- The panic `flag redefined: %s`. -/
  | redefined (name : GoString)
deriving DecidableEq, Repr

/-- The flag set `flag.CommandLine`: the names defined so far, the keys of its
map `formal`. -/
structure FlagSet where
  formal : List GoString
deriving DecidableEq, Repr

/-- The method `FlagSet.Var`, which `flag.String`, `flag.Int` and `flag.Bool` end in: it
panics on a name that begins with `-`, contains `=` or is already defined, and
enters the name otherwise. -/
def FlagSet.Var (f : FlagSet) (name : GoString) : Except FlagPanic FlagSet :=
  if HasPrefix name (ascii "-") then Except.error (FlagPanic.beginsWithDash name)
  else if Contains name (ascii "=") then Except.error (FlagPanic.containsEquals name)
  else if name ∈ f.formal then Except.error (FlagPanic.redefined name)
  else Except.ok { formal := f.formal ++ [name] }

/-- The names `ParseFlags` defines, in the order of its `var` block: `root`,
`branches`, `group`, `apiVer`, `kind`, `maxProcs`, `noGit`, `stream`,
`nullTerm`, `jsonl`, `quiet`, `jsonOut`, `verbose`, `showVer`. -/
def flagNames : List GoString :=
  [ascii "path", ascii "branch-filters", ascii "group", ascii "version", ascii "kind",
   ascii "max-procs", ascii "no-git", ascii "stream", ascii "0", ascii "jsonl", ascii "quiet",
   ascii "output-json", ascii "verbose", ascii "version"]

/-- The `var` block of `ParseFlags`: the definitions, one after the other, on
the empty flag set. -/
def registerFlags : Except FlagPanic FlagSet :=
  flagNames.foldlM FlagSet.Var { formal := [] }

/-- The values the flag variables point to after `flag.Parse()`. -/
structure FlagValues where
  root : GoString
  branches : GoString
  group : GoString
  apiVer : GoString
  kind : GoString
  maxProcs : Nat
  noGit : Bool
  stream : Bool
  nullTerm : Bool
  jsonl : Bool
  quiet : Bool
  jsonOut : Bool
  verbose : Bool
  showVer : Bool
deriving DecidableEq, Repr

/-- What the command line and the libraries contribute to `ParseFlags`. -/
structure FlagWorld where
  /-- The call `flag.Parse()` on the defined flags and `os.Args[1:]`: the values,
  or the exit code with which the flag set, being `ExitOnError`, ends the process. -/
  parse : FlagSet → List GoString → Except Nat FlagValues
  /-- The function `strings.TrimSpace`. -/
  trimSpace : GoString → GoString
  /-- The function `filepath.Clean`. -/
  clean : GoString → GoString
  /-- The variable `Version`. -/
  version : GoString

/-- How a call of `ParseFlags` ends. -/
inductive ParseOutcome where
  /-- A panic while the flags are defined. -/
  | panic (p : FlagPanic)
  /-- The process exits inside `flag.Parse()`. -/
  | exit (code : Nat)
  /-- The call returns `nil, err`. -/
  | err (e : GoError)
  /-- The call returns `cfg, nil`. -/
  | ok (cfg : Config)
deriving DecidableEq, Repr

/-- The loop of `ParseFlags` over the pieces of `*branches`. -/
def branchWordsLoop (lib : Lib) (fw : FlagWorld) : List GoString → List GoString
  | [] => []
  | piece :: rest =>
    let word := fw.trimSpace piece
    if word ≠ [] then ToLower lib word :: branchWordsLoop lib fw rest
    else branchWordsLoop lib fw rest

/-- The function `ParseFlags(stdout)` with the command line `args`; the second component is
what it writes to `stdout`. -/
def ParseFlags (lib : Lib) (fw : FlagWorld) (args : List GoString) :
    ParseOutcome × List Chunk :=
  match registerFlags with
  | Except.error p => (ParseOutcome.panic p, [])
  | Except.ok flags =>
    match fw.parse flags args with
    | Except.error code => (ParseOutcome.exit code, [])
    | Except.ok v =>
      if v.showVer then
        (ParseOutcome.err (GoError.other "flag: help requested"),
         [Chunk.bytes (ascii "kindfinder " ++ fw.version ++ ascii "\n")])
      else if fw.trimSpace v.kind = [] then
        (ParseOutcome.err (GoError.other "-kind is required"), [])
      else if (v.nullTerm && v.jsonl) || (v.jsonOut && (v.nullTerm || v.jsonl)) then
        (ParseOutcome.err
          (GoError.other "flags -0, -jsonl and -output-json are mutually exclusive"), [])
      else
        (ParseOutcome.ok
          { Root := fw.clean v.root, Group := v.group, Version := v.apiVer, Kind := v.kind,
            BranchWords := branchWordsLoop lib fw (Split v.branches 44),
            MaxProcs := v.maxProcs, NoGit := v.noGit, Stream := v.stream,
            NullTerm := v.nullTerm, JSONLines := v.jsonl, Quiet := v.quiet,
            OutputJSON := v.jsonOut, Verbose := v.verbose }, [])

/-! # Theorems -/

/-! ## Theorems: Go strings and the helpers of internal/manifest/yaml.go -/

theorem contPrefix_zero (s : GoString) : ContPrefix 0 s := by
  simp [ContPrefix]

theorem contPrefix_succ {k c : Nat} {rest : GoString} (h : ContPrefix (k + 1) (c :: rest)) :
    isCont c = true ∧ ContPrefix k rest := by
  obtain ⟨h1, h2⟩ := h
  simp only [List.take_succ_cons, List.mem_cons, forall_eq_or_imp] at h2
  exact ⟨h2.1, by simpa using h1, h2.2⟩

theorem decoderuneWidth_contPrefix (c : Nat) (rest : GoString) :
    ContPrefix (decoderuneWidth (c :: rest) - 1) rest := by
  simp only [decoderuneWidth]
  split_ifs with h1 h2 h3
  · cases rest with
    | nil => exact contPrefix_zero _
    | cons s1 t =>
      simp only
      split_ifs with h4 h5
      · simp [ContPrefix, h4]
      · exact contPrefix_zero _
      · exact contPrefix_zero _
  · match rest with
    | [] => exact contPrefix_zero _
    | [_] => exact contPrefix_zero _
    | s1 :: s2 :: t =>
      simp only
      split_ifs with h4 h5
      · simp only [Bool.and_eq_true] at h4
        simp [ContPrefix, h4.1, h4.2]
      · exact contPrefix_zero _
      · exact contPrefix_zero _
  · match rest with
    | [] => exact contPrefix_zero _
    | [_] => exact contPrefix_zero _
    | [_, _] => exact contPrefix_zero _
    | s1 :: s2 :: s3 :: t =>
      simp only
      split_ifs with h4 h5
      · simp only [Bool.and_eq_true] at h4
        simp [ContPrefix, h4.1.1, h4.1.2, h4.2]
      · exact contPrefix_zero _
      · exact contPrefix_zero _
  · exact contPrefix_zero _

theorem runeWidth_contPrefix (c : Nat) (rest : GoString) :
    ContPrefix (runeWidth (c :: rest) - 1) rest := by
  simp only [runeWidth]
  split_ifs
  · exact contPrefix_zero _
  · exact decoderuneWidth_contPrefix c rest


theorem isCont_ne_slash {c : Nat} (h : isCont c = true) : c ≠ 47 := by
  simp only [isCont, Bool.and_eq_true, decide_eq_true_eq] at h
  omega

theorem byteAt_append_length (pre : GoString) (c : Nat) (rest : GoString) :
    byteAt (pre ++ c :: rest) pre.length = c := by
  induction pre with
  | nil => simp [byteAt]
  | cons p ps ih => simpa [byteAt] using ih

/-- What the loop of `splitAPIVersion` returns from the middle of a string:
`pre` has been visited without finding `'/'`, `s` remains, and the next
`skip` bytes are continuation bytes of the last code point. -/
theorem splitAPIVersionLoop_rangeFrom (s : GoString) :
    ∀ (skip : Nat) (pre : GoString), ContPrefix skip s →
      splitAPIVersionLoop (pre ++ s) (rangeFrom skip pre.length s) =
        if 47 ∈ s then
          (pre ++ s.takeWhile (fun x => x != 47), (s.dropWhile (fun x => x != 47)).tail)
        else ([], pre ++ s) := by
  induction s with
  | nil => intro skip pre _; cases skip <;> simp [rangeFrom, splitAPIVersionLoop]
  | cons c rest ih =>
    intro skip pre hskip
    have hpre : pre ++ c :: rest = (pre ++ [c]) ++ rest := by simp
    have hlen : (pre ++ [c]).length = pre.length + 1 := by simp
    cases skip with
    | zero =>
      simp only [rangeFrom, splitAPIVersionLoop, byteAt_append_length]
      by_cases hc : c = 47
      · subst hc
        simp
      · rw [if_neg hc, hpre, ← hlen, ih _ _ (runeWidth_contPrefix c rest)]
        have h47 : ¬ (47 = c) := fun h => hc h.symm
        simp [List.takeWhile_cons, List.dropWhile_cons, hc, h47]
    | succ k =>
      obtain ⟨hcont, hrest⟩ := contPrefix_succ hskip
      have hc : c ≠ 47 := isCont_ne_slash hcont
      have h47 : ¬ (47 = c) := fun h => hc h.symm
      simp only [rangeFrom]
      rw [hpre, ← hlen, ih _ _ hrest]
      simp [List.takeWhile_cons, List.dropWhile_cons, hc, h47]

theorem splitAPIVersion_eq (av : GoString) :
    splitAPIVersion av =
      if 47 ∈ av then
        (av.takeWhile (fun x => x != 47), (av.dropWhile (fun x => x != 47)).tail)
      else ([], av) := by
  have h := splitAPIVersionLoop_rangeFrom av 0 [] (contPrefix_zero av)
  simpa [splitAPIVersion, stringRange] using h

theorem dropWhile_ne_of_mem (s : GoString) (h : 47 ∈ s) :
    s.dropWhile (fun x => x != 47) = 47 :: (s.dropWhile (fun x => x != 47)).tail := by
  induction s with
  | nil => simp at h
  | cons c rest ih =>
    by_cases hc : c = 47
    · subst hc; simp
    · have h47 : ¬ (47 = c) := fun h => hc h.symm
      have : 47 ∈ rest := by simpa [h47] using h
      simpa [List.dropWhile_cons, hc] using ih this

/-- An index the `range` loop skips holds a continuation byte, never `'/'`:
after the lead byte E2 the loop still visits the `'/'` that follows it. -/
theorem splitAPIVersion_invalid_utf8 :
    splitAPIVersion [0x61, 0xE2, 47, 0x82, 0xAC, 47] = ([0x61, 0xE2], [0x82, 0xAC, 47]) ∧
    splitAPIVersion [0xE2, 0x82, 0xAC, 47, 0x76] = ([0xE2, 0x82, 0xAC], [0x76]) := by
  decide

/-- C3. For every byte string `av`, valid UTF-8 or not: when `av` holds a `'/'`
(byte 47), `splitAPIVersion(av)` is the text before the first `'/'` and the
text after it, so that group, `'/'` and version make up `av` again and the
group holds no `'/'`; when `av` holds no `'/'`, the result is `""` and `av`. -/
theorem splitAPIVersion_first_slash (av : GoString) :
    (47 ∈ av →
      (splitAPIVersion av).1 ++ 47 :: (splitAPIVersion av).2 = av ∧
      47 ∉ (splitAPIVersion av).1) ∧
    (47 ∉ av → splitAPIVersion av = ([], av)) := by
  rw [splitAPIVersion_eq]
  constructor
  · intro h
    rw [if_pos h]
    refine ⟨?_, ?_⟩
    · simp only
      rw [← dropWhile_ne_of_mem av h, List.takeWhile_append_dropWhile]
    · intro hmem
      have := List.mem_takeWhile_imp hmem
      simp at this
  · intro h
    rw [if_neg h]

/-! ## Theorems: internal/manifest/yaml.go, Match -/

theorem MatchLoop_doc (dec : Nat → DecodeResult) (g v k : GoString) (fuel n : Nat) (m : Meta)
    (h : dec n = DecodeResult.doc m) :
    MatchLoop dec g v k (fuel + 1) n =
      if docAccepted m g v k then some true else MatchLoop dec g v k fuel (n + 1) := by
  simp only [MatchLoop, h, docAccepted]
  by_cases hk : equalsFold m.Kind k = true
  · by_cases hg : g = star <;> by_cases hv : v = star <;>
      by_cases hg2 : g = (splitAPIVersion m.APIVersion).1 <;>
      by_cases hv2 : v = (splitAPIVersion m.APIVersion).2 <;>
      simp [hk, hg, hv, hg2, hv2]
  · simp [hk]

/-- A `true` result comes from a decoded document that the loop body accepts
and that no end of input precedes. -/
theorem MatchLoop_true_sound (dec : Nat → DecodeResult) (g v k : GoString) :
    ∀ (fuel n : Nat), MatchLoop dec g v k fuel n = some true →
      ∃ j m, n ≤ j ∧ (∀ i, n ≤ i → i < j → dec i ≠ DecodeResult.eof) ∧
        dec j = DecodeResult.doc m ∧ docAccepted m g v k := by
  intro fuel
  induction fuel with
  | zero => intro n h; simp [MatchLoop] at h
  | succ fuel ih =>
    intro n h
    have step : MatchLoop dec g v k fuel (n + 1) = some true →
        ∃ j m, n ≤ j ∧ (∀ i, n ≤ i → i < j → dec i ≠ DecodeResult.eof) ∧
          dec j = DecodeResult.doc m ∧ docAccepted m g v k := by
      intro h'
      obtain ⟨j, m, hj, hpre, hd, ha⟩ := ih (n + 1) h'
      refine ⟨j, m, by omega, ?_, hd, ha⟩
      intro i hi hij
      by_cases hin : i = n
      · subst hin
        intro heof
        simp [MatchLoop, heof] at h
      · exact hpre i (by omega) hij
    cases hdec : dec n with
    | eof => simp [MatchLoop, hdec] at h
    | failed =>
      simp only [MatchLoop, hdec] at h
      exact step h
    | doc m =>
      rw [MatchLoop_doc dec g v k fuel n m hdec] at h
      by_cases ha : docAccepted m g v k
      · exact ⟨n, m, le_refl n, fun i h1 h2 => absurd h2 (by omega), hdec, ha⟩
      · rw [if_neg ha] at h
        exact step h

/-- An accepted document that no end of input precedes is reached with enough fuel. -/
theorem MatchLoop_true_complete (dec : Nat → DecodeResult) (g v k : GoString) (j : Nat) (m : Meta)
    (hd : dec j = DecodeResult.doc m) (ha : docAccepted m g v k) :
    ∀ (d n : Nat), n + d = j → (∀ i, n ≤ i → i < j → dec i ≠ DecodeResult.eof) →
      MatchLoop dec g v k (d + 1) n = some true := by
  intro d
  induction d with
  | zero =>
    intro n hn _
    have : n = j := by omega
    subst this
    rw [MatchLoop_doc dec g v k 0 n m hd, if_pos ha]
  | succ d ih =>
    intro n hn hpre
    have hrec := ih (n + 1) (by omega) (fun i h1 h2 => hpre i (by omega) h2)
    cases hdec : dec n with
    | eof => exact absurd hdec (hpre n (le_refl n) (by omega))
    | failed => simpa [MatchLoop, hdec] using hrec
    | doc m' =>
      rw [MatchLoop_doc dec g v k (d + 1) n m' hdec]
      by_cases ha' : docAccepted m' g v k
      · rw [if_pos ha']
      · rw [if_neg ha']; exact hrec

/-- What `Match` computes: it returns true exactly when the pre-filter passes
and the loop body accepts a document decoded before the end of input. -/
theorem Match_true_iff (lib : Lib) (data g v k : GoString) :
    (∃ fuel, Match lib fuel data g v k = some true) ↔
      Contains (ToLower lib data) (ascii "kind:") = true ∧
      ∃ j m, (∀ i, i < j → lib.yamlDecode data i ≠ DecodeResult.eof) ∧
        lib.yamlDecode data j = DecodeResult.doc m ∧ docAccepted m g v k := by
  constructor
  · rintro ⟨fuel, h⟩
    unfold Match at h
    by_cases hc : Contains (ToLower lib data) (ascii "kind:") = true
    · simp only [hc, Bool.not_true, Bool.false_eq_true, if_false] at h
      obtain ⟨j, m, _, hpre, hd, ha⟩ := MatchLoop_true_sound _ g v k fuel 0 h
      exact ⟨hc, j, m, fun i hi => hpre i (Nat.zero_le i) hi, hd, ha⟩
    · simp [hc] at h
  · rintro ⟨hc, j, m, hpre, hd, ha⟩
    refine ⟨j + 1, ?_⟩
    unfold Match
    simp only [hc, Bool.not_true, Bool.false_eq_true, if_false]
    exact MatchLoop_true_complete _ g v k j m hd ha j 0 (by omega) (fun i _ hi => hpre i hi)

/-- More fuel does not change a result. -/
theorem MatchLoop_fuel_mono (dec : Nat → DecodeResult) (g v k : GoString) (b : Bool) :
    ∀ (fuel n extra : Nat), MatchLoop dec g v k fuel n = some b →
      MatchLoop dec g v k (fuel + extra) n = some b := by
  intro fuel
  induction fuel with
  | zero => intro n extra h; simp [MatchLoop] at h
  | succ fuel ih =>
    intro n extra h
    have e : fuel + 1 + extra = (fuel + extra) + 1 := by omega
    rw [e]
    cases hdec : dec n with
    | eof => simpa [MatchLoop, hdec] using h
    | failed =>
      simp only [MatchLoop, hdec] at h ⊢
      exact ih _ _ h
    | doc m =>
      rw [MatchLoop_doc dec g v k _ n m hdec] at h ⊢
      by_cases ha : docAccepted m g v k
      · simpa [ha] using h
      · rw [if_neg ha] at h ⊢
        exact ih _ _ h

/-- When the decoder reports end of input at its `j`-th call, the loop returns
within `j + 1` iterations, whatever the earlier calls returned. -/
theorem MatchLoop_returns_of_eof (dec : Nat → DecodeResult) (g v k : GoString) (j : Nat)
    (heof : dec j = DecodeResult.eof) :
    ∀ (d n : Nat), n + d = j → ∃ b, MatchLoop dec g v k (d + 1) n = some b := by
  intro d
  induction d with
  | zero =>
    intro n hn
    have : n = j := by omega
    subst this
    exact ⟨false, by simp [MatchLoop, heof]⟩
  | succ d ih =>
    intro n hn
    obtain ⟨b, hb⟩ := ih (n + 1) (by omega)
    cases hdec : dec n with
    | eof => exact ⟨false, by simp [MatchLoop, hdec]⟩
    | failed => exact ⟨b, by simpa [MatchLoop, hdec] using hb⟩
    | doc m =>
      rw [MatchLoop_doc dec g v k (d + 1) n m hdec]
      by_cases ha : docAccepted m g v k
      · exact ⟨true, by rw [if_pos ha]⟩
      · exact ⟨b, by rw [if_neg ha]; exact hb⟩

/-- A decoder that answers every call with an error other than `io.EOF` keeps
the loop in its `continue` branch: no amount of fuel reaches a `return`. -/
theorem MatchLoop_none_of_failed (dec : Nat → DecodeResult) (g v k : GoString)
    (hfail : ∀ n, dec n = DecodeResult.failed) :
    ∀ (fuel n : Nat), MatchLoop dec g v k fuel n = none := by
  intro fuel
  induction fuel with
  | zero => intro n; simp [MatchLoop]
  | succ fuel ih => intro n; simp [MatchLoop, hfail n, ih (n + 1)]

/-! ## Theorems: internal/util/parallel.go -/

/-- The invariant of a semaphore of capacity `max` along a run of calls. -/
theorem semInv_call (max : Nat) (t t1 : SemTrace) (c : SemCall)
    (hinv : t.sem.cap = max ∧ t.sem.len ≤ max ∧ t.released ≤ t.acquired ∧
      t.sem.len + t.released = t.acquired)
    (hcall : t.call c = some t1) :
    t1.sem.cap = max ∧ t1.sem.len ≤ max ∧ t1.released ≤ t1.acquired ∧
      t1.sem.len + t1.released = t1.acquired := by
  obtain ⟨hcap, hlen, hrel, hsum⟩ := hinv
  cases c with
  | tryAcquire =>
    simp only [SemTrace.call, Semaphore.TryAcquire, Option.some.injEq] at hcall
    subst hcall
    by_cases h : t.sem.len < t.sem.cap
    · simp only [h, if_true]
      refine ⟨hcap, ?_, ?_, ?_⟩ <;> omega
    · simp only [h, if_false]
      exact ⟨hcap, hlen, hrel, by simpa using hsum⟩
  | release =>
    simp only [SemTrace.call, Semaphore.Release] at hcall
    by_cases h : 0 < t.sem.len
    · simp only [h, if_true, Option.some.injEq] at hcall
      subst hcall
      refine ⟨hcap, ?_, ?_, ?_⟩ <;> simp only <;> omega
    · simp [h] at hcall

theorem semInv_runFrom (max : Nat) (calls : List SemCall) :
    ∀ (t t1 : SemTrace),
      (t.sem.cap = max ∧ t.sem.len ≤ max ∧ t.released ≤ t.acquired ∧
        t.sem.len + t.released = t.acquired) →
      semRunFrom t calls = some t1 →
      t1.sem.cap = max ∧ t1.sem.len ≤ max ∧ t1.released ≤ t1.acquired ∧
        t1.sem.len + t1.released = t1.acquired := by
  induction calls with
  | nil =>
    intro t t1 hinv h
    simp only [semRunFrom, Option.some.injEq] at h
    subst h; exact hinv
  | cons c cs ih =>
    intro t t1 hinv h
    simp only [semRunFrom] at h
    cases hc : t.call c with
    | none => simp [hc] at h
    | some t2 =>
      simp only [hc, Option.some_bind] at h
      exact ih t2 t1 (semInv_call max t t2 c hinv hc) h

/-- C6. After every run of `TryAcquire` and `Release` calls on
`NewSemaphore(max)` in which no `Release` is made with no slot held, the
channel holds as many values as slots are held (successful `TryAcquire` calls
minus `Release` calls), at most `max`; the next `TryAcquire` returns true
exactly when fewer than `max` slots are held and then holds one more,
otherwise it returns false and leaves the semaphore as it is; a `Release`
made while a slot is held lowers the count by exactly one. -/
theorem semaphore_contract (max : Nat) (_hmax : 1 ≤ max) (calls : List SemCall)
    (t : SemTrace) (hrun : semRun max calls = some t) :
    t.sem.cap = max ∧ t.sem.len = t.held ∧ t.held ≤ max ∧
    (t.sem.TryAcquire.1 = true ↔ t.held < max) ∧
    (t.held < max → ∃ t1, t.call SemCall.tryAcquire = some t1 ∧ t1.held = t.held + 1) ∧
    (¬ t.held < max → t.sem.TryAcquire = (false, t.sem) ∧
      ∃ t1, t.call SemCall.tryAcquire = some t1 ∧ t1.sem = t.sem ∧ t1.held = t.held) ∧
    (0 < t.held → ∃ t1, t.call SemCall.release = some t1 ∧ t1.held + 1 = t.held) := by
  have hinv := semInv_runFrom max calls _ t
    (by simp [NewSemaphore]) hrun
  obtain ⟨hcap, hlen, hrel, hsum⟩ := hinv
  have hheld : t.sem.len = t.held := by simp only [SemTrace.held]; omega
  refine ⟨hcap, hheld, by omega, ?_, ?_, ?_, ?_⟩
  · by_cases h : t.sem.len < t.sem.cap
    · simp only [Semaphore.TryAcquire, h, if_true, true_iff]; omega
    · simp only [Semaphore.TryAcquire, h, if_false, Bool.false_eq_true, false_iff]; omega
  · intro h
    have h1 : t.sem.len < t.sem.cap := by omega
    refine ⟨_, rfl, ?_⟩
    simp only [SemTrace.held, Semaphore.TryAcquire, h1, if_true] at hheld ⊢
    omega
  · intro h
    have h1 : ¬ t.sem.len < t.sem.cap := by omega
    refine ⟨by simp [Semaphore.TryAcquire, h1], _, rfl, ?_, ?_⟩
    · simp [Semaphore.TryAcquire, h1]
    · simp [SemTrace.held, Semaphore.TryAcquire, h1]
  · intro h
    have h1 : 0 < t.sem.len := by omega
    refine ⟨{ sem := { t.sem with len := t.sem.len - 1 }, acquired := t.acquired,
              released := t.released + 1 }, ?_, ?_⟩
    · simp [SemTrace.call, Semaphore.Release, h1]
    · simp only [SemTrace.held] at hheld ⊢
      omega

/-- C6 at a concrete run: capacity 2, two acquisitions, a release, an acquisition. -/
theorem semaphore_contract_witness :
    semRun 2 [SemCall.tryAcquire, SemCall.tryAcquire, SemCall.release, SemCall.tryAcquire] =
        some { sem := { cap := 2, len := 2 }, acquired := 3, released := 1 } ∧
    ({ sem := { cap := 2, len := 2 }, acquired := 3, released := 1 } : SemTrace).held ≤ 2 :=
  ⟨by decide,
   (semaphore_contract 2 (by decide)
      [SemCall.tryAcquire, SemCall.tryAcquire, SemCall.release, SemCall.tryAcquire]
      { sem := { cap := 2, len := 2 }, acquired := 3, released := 1 } (by decide)).2.2.1⟩

/-! ## Theorems: the result bucket of internal/scan/fs.go -/

theorem mem_firstOccurrences (hits : List GoString) (k : GoString) :
    k ∈ firstOccurrences hits ↔ k ∈ hits := by
  induction hits with
  | nil => simp [firstOccurrences]
  | cons x xs ih =>
    simp only [firstOccurrences, List.mem_cons, List.mem_filter, ih, decide_eq_true_eq]
    by_cases h : k = x <;> simp [h]

theorem nodup_firstOccurrences (hits : List GoString) : (firstOccurrences hits).Nodup := by
  induction hits with
  | nil => simp [firstOccurrences]
  | cons x xs ih =>
    simp only [firstOccurrences, List.nodup_cons, List.mem_filter, decide_eq_true_eq]
    exact ⟨fun h => h.2 rfl, ih.filter _⟩

/-- The first occurrences are listed in the order in which they first occur. -/
theorem pairwise_firstOccurrences (hits : List GoString) :
    (firstOccurrences hits).Pairwise (fun a b => firstIndex a hits < firstIndex b hits) := by
  induction hits with
  | nil => simp [firstOccurrences]
  | cons x xs ih =>
    simp only [firstOccurrences, List.pairwise_cons, List.mem_filter, decide_eq_true_eq]
    constructor
    · rintro b ⟨_, hb⟩
      simp [firstIndex, Ne.symm hb]
    · refine List.Pairwise.imp_of_mem ?_ (ih.filter _)
      intro a b ha hb hab
      simp only [List.mem_filter, decide_eq_true_eq] at ha hb
      simpa [firstIndex, Ne.symm ha.2, Ne.symm hb.2] using hab

/-- The bucket after a run of `add` calls, from any bucket whose map holds
exactly the records of its slice. -/
theorem bucket_foldl_add (hits : List GoString) :
    ∀ (b : bucket), (∀ k, b.set k = true ↔ k ∈ b.order) →
      (hits.foldl bucket.add b).order =
        b.order ++ (firstOccurrences hits).filter (fun y => decide (y ∉ b.order)) ∧
      (∀ k, (hits.foldl bucket.add b).set k = true ↔ k ∈ (hits.foldl bucket.add b).order) := by
  induction hits with
  | nil => intro b hb; simpa [firstOccurrences] using hb
  | cons x xs ih =>
    intro b hb
    simp only [List.foldl_cons]
    by_cases hx : b.set x = true
    · have hmem : x ∈ b.order := (hb x).1 hx
      have hadd : b.add x = b := by simp [bucket.add, hx]
      rw [hadd]
      refine ⟨?_, (ih b hb).2⟩
      rw [(ih b hb).1]
      congr 1
      simp only [firstOccurrences, List.filter_cons, hmem, not_true_eq_false, decide_False,
        Bool.false_eq_true, if_false, List.filter_filter]
      apply List.filter_congr
      intro y _
      by_cases hy : y ∈ b.order
      · simp [hy]
      · have : y ≠ x := fun h => hy (h ▸ hmem)
        simp [hy, this]
    · have hmem : x ∉ b.order := fun h => hx ((hb x).2 h)
      have hb1 : ∀ k, (b.add x).set k = true ↔ k ∈ (b.add x).order := by
        intro k
        simp only [bucket.add, hx, Bool.false_eq_true, if_false, List.mem_append,
          List.mem_singleton]
        by_cases hk : k = x
        · simp [hk]
        · simp [hk, hb k]
      refine ⟨?_, (ih _ hb1).2⟩
      rw [(ih _ hb1).1]
      have hord : (b.add x).order = b.order ++ [x] := by simp [bucket.add, hx]
      rw [hord]
      simp only [firstOccurrences, List.filter_cons, hmem, not_false_eq_true, decide_True,
        if_true, List.filter_filter, List.append_assoc, List.singleton_append]
      congr 2
      apply List.filter_congr
      intro y _
      by_cases hy : y ∈ b.order <;> by_cases hyx : y = x <;> simp [hy, hyx]

/-- C5. After any finite sequence of `add` calls on a bucket made by
`newBucket`, the slice `order` has no two equal records, it is the list of the
distinct added records in the order of their first add, the map `set` holds
exactly the records of `order`, and adding any of the records once more
leaves the bucket as it is. -/
theorem bucket_add_dedup (hits : List GoString) :
    (hits.foldl bucket.add newBucket).order.Nodup ∧
    (hits.foldl bucket.add newBucket).order = firstOccurrences hits ∧
    (∀ k, k ∈ (hits.foldl bucket.add newBucket).order ↔ k ∈ hits) ∧
    (hits.foldl bucket.add newBucket).order.Pairwise
      (fun a b => firstIndex a hits < firstIndex b hits) ∧
    (∀ k, (hits.foldl bucket.add newBucket).set k = true ↔
      k ∈ (hits.foldl bucket.add newBucket).order) ∧
    (∀ h, h ∈ hits →
      (hits.foldl bucket.add newBucket).add h = hits.foldl bucket.add newBucket) := by
  have hnew : ∀ k, newBucket.set k = true ↔ k ∈ newBucket.order := by simp [newBucket]
  obtain ⟨hord, hset⟩ := bucket_foldl_add hits newBucket hnew
  have hord1 : (hits.foldl bucket.add newBucket).order = firstOccurrences hits := by
    rw [hord]; simp [newBucket]
  refine ⟨?_, hord1, ?_, ?_, hset, ?_⟩
  · rw [hord1]; exact nodup_firstOccurrences hits
  · intro k; rw [hord1]; exact mem_firstOccurrences hits k
  · rw [hord1]; exact pairwise_firstOccurrences hits
  · intro h hh
    have : (hits.foldl bucket.add newBucket).set h = true :=
      (hset h).2 (by rw [hord1]; exact (mem_firstOccurrences hits h).2 hh)
    simp [bucket.add, this]

/-! ## Theorems: equalsFold on the strings its loop covers -/

theorem foldByte_eq_asciiLower (c : Nat) : foldByte c = asciiLower c := by
  unfold foldByte asciiLower
  split_ifs with h
  · omega
  · rfl

theorem equalsFoldLoop_true_iff (a b : GoString) (idx : List Nat) :
    equalsFoldLoop a b idx = true ↔
      ∀ i, i ∈ idx → asciiLower (byteAt a i) = asciiLower (byteAt b i) := by
  induction idx with
  | nil => simp [equalsFoldLoop]
  | cons i is ih =>
    simp only [equalsFoldLoop, foldByte_eq_asciiLower, List.mem_cons, forall_eq_or_imp]
    by_cases h : asciiLower (byteAt a i) = asciiLower (byteAt b i)
    · simp [h, ih]
    · simp [h]

theorem byteAt_map_asciiLower (s : GoString) (i : Nat) (h : i < s.length) :
    byteAt (s.map asciiLower) i = asciiLower (byteAt s i) := by
  simp [byteAt, List.getD_eq_getElem?_getD, List.getElem?_eq_getElem, h]

/-- Strings that are equal up to the case of ASCII letters are reported equal. -/
theorem equalsFold_of_map_eq (a b : GoString)
    (h : a.map asciiLower = b.map asciiLower) : equalsFold a b = true := by
  have hlen : a.length = b.length := by
    have := congrArg List.length h
    simpa using this
  unfold equalsFold
  simp only [hlen, ne_eq, not_true_eq_false, if_false]
  rw [equalsFoldLoop_true_iff]
  intro i _
  by_cases hi : i < a.length
  · rw [← byteAt_map_asciiLower a i hi, ← byteAt_map_asciiLower b i (hlen ▸ hi), h]
  · have ha : byteAt a i = 0 := by
      simp [byteAt, List.getD_eq_getElem?_getD, List.getElem?_eq_none (Nat.le_of_not_lt hi)]
    have hb : byteAt b i = 0 := by
      simp [byteAt, List.getD_eq_getElem?_getD,
        List.getElem?_eq_none (Nat.le_of_not_lt (hlen ▸ hi))]
    rw [ha, hb]

theorem rangeFrom_ascii (s : GoString) :
    ∀ (i : Nat), (∀ c, c ∈ s → c < 0x80) → rangeFrom 0 i s = List.range' i s.length := by
  induction s with
  | nil => intro i _; simp [rangeFrom]
  | cons c rest ih =>
    intro i h
    have hc : c < 0x80 := h c (List.mem_cons_self _ _)
    have hw : runeWidth (c :: rest) = 1 := by simp [runeWidth, hc]
    simp only [rangeFrom, hw, Nat.sub_self, List.length_cons, List.range'_succ]
    rw [ih (i + 1) (fun x hx => h x (List.mem_cons_of_mem _ hx))]

/-- On a first argument made of ASCII bytes `equalsFold` is the comparison up
to the case of ASCII letters. -/
theorem equalsFold_iff_of_ascii (a b : GoString) (hascii : ∀ c, c ∈ a → c < 0x80) :
    equalsFold a b = true ↔ a.map asciiLower = b.map asciiLower := by
  constructor
  · intro h
    unfold equalsFold at h
    by_cases hlen : a.length = b.length
    · simp only [hlen, ne_eq, not_true_eq_false, if_false] at h
      rw [equalsFoldLoop_true_iff, stringRange, rangeFrom_ascii a 0 hascii] at h
      apply List.ext_getElem (by simpa using hlen)
      intro i h1 h2
      have hi : i < a.length := by simpa using h1
      have hj : i < b.length := hlen ▸ hi
      have := h i (by simp [List.mem_range', hi])
      have ea : byteAt a i = a[i] := by
        simp [byteAt, List.getD_eq_getElem?_getD, List.getElem?_eq_getElem, hi]
      have eb : byteAt b i = b[i] := by
        simp [byteAt, List.getD_eq_getElem?_getD, List.getElem?_eq_getElem, hj]
      rw [ea, eb] at this
      simpa using this
    · simp [hlen] at h
  · exact equalsFold_of_map_eq a b

/-! ## Theorems: what the units of work write to `out` -/

theorem tick_out (st : ScanState) : st.tick.out = st.out := rfl

theorem addHit_out (st st1 : ScanState) (hit : GoString) (h : st.addHit hit = some st1) :
    st1.out = st.out := by
  unfold ScanState.addHit at h
  split at h
  · simp only [Option.some.injEq] at h; subst h; rfl
  · simp at h

theorem release_out (st st1 : ScanState) (h : st.release = some st1) : st1.out = st.out := by
  unfold ScanState.release at h
  split at h
  · simp only [Option.some.injEq] at h; subst h; rfl
  · simp at h

/-- In the buffered regime `inspectFile` writes nothing to `out`. -/
theorem inspectFile_out (lib : Lib) (w : World) (fuel : Nat) (path : GoString) (cfg : Config)
    (hb : (cfg.Stream && !cfg.OutputJSON) = false) (st st1 : ScanState) (e : Option GoError)
    (h : inspectFile lib w fuel path cfg st = some (st1, e)) : st1.out = st.out := by
  unfold inspectFile at h
  rw [hb] at h
  split at h
  · simp only [Option.some.injEq, Prod.mk.injEq] at h; rw [← h.1]; rfl
  · split at h
    · simp at h
    · simp only [Option.some.injEq, Prod.mk.injEq] at h; rw [← h.1]; rfl
    · simp only [Bool.false_eq_true, if_false] at h
      split at h
      · simp at h
      · rename_i st2 hadd
        simp only [Option.some.injEq, Prod.mk.injEq] at h
        rw [← h.1, addHit_out _ _ _ hadd]; rfl

theorem scanBranchLoop_out (lib : Lib) (w : World) (fuel : Nat) (repo branch : GoString)
    (cfg : Config) (hb : (cfg.Stream && !cfg.OutputJSON) = false) (paths : List GoString) :
    ∀ (st st1 : ScanState), scanBranchLoop lib w fuel repo branch cfg paths st = some st1 →
      st1.out = st.out := by
  induction paths with
  | nil => intro st st1 h; simp only [scanBranchLoop, Option.some.injEq] at h; rw [← h]
  | cons p ps ih =>
    intro st st1 h
    unfold scanBranchLoop at h
    rw [hb] at h
    split at h
    · exact ih _ _ h
    · split at h
      · exact (ih _ _ h).trans (tick_out st)
      · split at h
        · simp at h
        · exact (ih _ _ h).trans (tick_out st)
        · simp only [Bool.false_eq_true, if_false] at h
          split at h
          · simp at h
          · rename_i st2 hadd
            exact (ih _ _ h).trans ((addHit_out _ _ _ hadd).trans (tick_out st))

/-- In the buffered regime `scanBranch` writes nothing to `out`. -/
theorem scanBranch_out (lib : Lib) (w : World) (fuel : Nat) (repo branch : GoString)
    (cfg : Config) (hb : (cfg.Stream && !cfg.OutputJSON) = false) (st st1 : ScanState)
    (e : Option GoError) (h : scanBranch lib w fuel repo branch cfg st = some (st1, e)) :
    st1.out = st.out := by
  unfold scanBranch at h
  simp only at h
  split at h
  · simp only [Option.some.injEq, Prod.mk.injEq] at h; rw [← h.1]; rfl
  · simp only [Option.some.injEq, Prod.mk.injEq] at h; rw [← h.1]; rfl
  · split at h
    · simp at h
    · rename_i st2 hloop
      simp only [Option.some.injEq, Prod.mk.injEq] at h
      rw [← h.1, scanBranchLoop_out lib w fuel repo branch cfg hb _ _ _ hloop]; rfl

theorem branchTask_out (lib : Lib) (w : World) (fuel : Nat) (repo branch : GoString)
    (cfg : Config) (hb : (cfg.Stream && !cfg.OutputJSON) = false) (st st1 : ScanState)
    (e : Option GoError) (h : branchTask lib w fuel repo branch cfg st = some (st1, e)) :
    st1.out = st.out := by
  unfold branchTask at h
  split at h
  · simp at h
  · rename_i st2 e2 hscan
    split at h
    · simp at h
    · rename_i st3 hrel
      simp only [Option.some.injEq, Prod.mk.injEq] at h
      rw [← h.1, release_out _ _ hrel]
      exact (scanBranch_out lib w fuel repo branch cfg hb _ _ _ hscan).trans rfl

theorem waitBranches_out (lib : Lib) (w : World) (fuel : Nat) (repo : GoString)
    (cfg : Config) (hb : (cfg.Stream && !cfg.OutputJSON) = false) (pending : List GoString) :
    ∀ (err : Option GoError) (st st1 : ScanState) (e : Option GoError),
      waitBranches lib w fuel repo cfg pending err st = some (st1, e) → st1.out = st.out := by
  induction pending with
  | nil =>
    intro err st st1 e h
    simp only [waitBranches, Option.some.injEq, Prod.mk.injEq] at h
    rw [← h.1]
  | cons br rest ih =>
    intro err st st1 e h
    unfold waitBranches at h
    split at h
    · simp at h
    · rename_i st2 e2 htask
      exact ((ih _ _ _ _ h).trans (branchTask_out lib w fuel repo br cfg hb _ _ _ htask)).trans rfl

theorem scanRepoLoop_out (lib : Lib) (w : World) (fuel : Nat) (repo : GoString)
    (cfg : Config) (hb : (cfg.Stream && !cfg.OutputJSON) = false) (branches : List GoString) :
    ∀ (pending : List GoString) (err : Option GoError) (st st1 : ScanState)
      (pending1 : List GoString) (err1 ret : Option GoError),
      scanRepoLoop lib w fuel repo cfg branches pending err st = some (st1, pending1, err1, ret) →
      st1.out = st.out := by
  induction branches with
  | nil =>
    intro pending err st st1 pending1 err1 ret h
    simp only [scanRepoLoop, Option.some.injEq, Prod.mk.injEq] at h
    rw [← h.1]
  | cons br rest ih =>
    intro pending err st st1 pending1 err1 ret h
    unfold scanRepoLoop at h
    split at h
    · exact (ih _ _ _ _ _ _ _ h).trans rfl
    · simp only at h
      split at h
      · split at h
        · split at h
          · simp at h
          · rename_i st2 e2 htask
            exact ((ih _ _ _ _ _ _ _ h).trans
              (branchTask_out lib w fuel repo br cfg hb _ _ _ htask)).trans rfl
        · exact (ih _ _ _ _ _ _ _ h).trans rfl
      · split at h
        · simp at h
        · rename_i st2 e2 hscan
          simp only [Option.some.injEq, Prod.mk.injEq] at h
          rw [← h.1]
          exact (scanBranch_out lib w fuel repo br cfg hb _ _ _ hscan).trans rfl
        · rename_i st2 hscan
          exact ((ih _ _ _ _ _ _ _ h).trans
            (scanBranch_out lib w fuel repo br cfg hb _ _ _ hscan)).trans rfl

theorem scanRepo_out (lib : Lib) (w : World) (fuel : Nat) (repo : GoString)
    (cfg : Config) (hb : (cfg.Stream && !cfg.OutputJSON) = false) (st st1 : ScanState)
    (e : Option GoError) (h : scanRepo lib w fuel repo cfg st = some (st1, e)) :
    st1.out = st.out := by
  unfold scanRepo at h
  split at h
  · simp only [Option.some.injEq, Prod.mk.injEq] at h; rw [← h.1]; rfl
  · split at h
    · simp at h
    · rename_i st2 pending err2 e2 hloop
      simp only [Option.some.injEq, Prod.mk.injEq] at h
      rw [← h.1]
      exact (scanRepoLoop_out lib w fuel repo cfg hb _ _ _ _ _ _ _ _ hloop).trans rfl
    · rename_i st2 pending err2 hloop
      exact ((waitBranches_out lib w fuel repo cfg hb _ _ _ _ _ h).trans
        (scanRepoLoop_out lib w fuel repo cfg hb _ _ _ _ _ _ _ _ hloop)).trans rfl

theorem runTask_out (lib : Lib) (w : World) (fuel : Nat) (cfg : Config)
    (hb : (cfg.Stream && !cfg.OutputJSON) = false) (t : Task) (st st1 : ScanState)
    (e : Option GoError) (h : runTask lib w fuel cfg t st = some (st1, e)) :
    st1.out = st.out := by
  unfold runTask at h
  simp only at h
  split at h
  · simp at h
  · rename_i st2 e2 hbody
    split at h
    · simp at h
    · rename_i st3 hrel
      simp only [Option.some.injEq, Prod.mk.injEq] at h
      rw [← h.1, release_out _ _ hrel]
      cases t with
      | repo r => exact scanRepo_out lib w fuel r cfg hb _ _ _ hbody
      | file p => exact inspectFile_out lib w fuel p cfg hb _ _ _ hbody
      | branch r b => exact scanBranch_out lib w fuel r b cfg hb _ _ _ hbody

theorem egGo_out (lib : Lib) (w : World) (fuel : Nat) (cfg : Config)
    (hb : (cfg.Stream && !cfg.OutputJSON) = false) (t : Task) (g g1 : Group)
    (st st1 : ScanState) (h : egGo lib w fuel cfg t g st = some (st1, g1)) :
    st1.out = st.out := by
  unfold egGo at h
  split at h
  · split at h
    · simp at h
    · rename_i st2 e2 htask
      simp only [Option.some.injEq, Prod.mk.injEq] at h
      rw [← h.1]
      exact (runTask_out lib w fuel cfg hb t _ _ _ htask).trans rfl
  · simp only [Option.some.injEq, Prod.mk.injEq] at h
    rw [← h.1]; rfl

theorem egWait_out (lib : Lib) (w : World) (fuel : Nat) (cfg : Config)
    (hb : (cfg.Stream && !cfg.OutputJSON) = false) (pending : List Task) :
    ∀ (err : Option GoError) (st st1 : ScanState) (e : Option GoError),
      egWait lib w fuel cfg pending err st = some (st1, e) → st1.out = st.out := by
  induction pending with
  | nil =>
    intro err st st1 e h
    simp only [egWait, Option.some.injEq, Prod.mk.injEq] at h
    rw [← h.1]
  | cons t rest ih =>
    intro err st st1 e h
    unfold egWait at h
    split at h
    · simp at h
    · rename_i st2 e2 htask
      exact ((ih _ _ _ _ h).trans (runTask_out lib w fuel cfg hb t _ _ _ htask)).trans rfl

theorem walkFn_out (lib : Lib) (w : World) (fuel : Nat) (cfg : Config)
    (hb : (cfg.Stream && !cfg.OutputJSON) = false) (ev : WalkEvent) (g g1 : Group)
    (st st1 : ScanState) (r : WalkRet)
    (h : walkFn lib w fuel cfg ev g st = some (st1, g1, r)) : st1.out = st.out := by
  unfold walkFn at h
  split at h
  · simp only [Option.some.injEq, Prod.mk.injEq] at h; rw [← h.1]
  · split at h
    · simp only at h
      split at h
      · split at h
        · simp at h
        · rename_i st2 g2 hgo
          simp only [Option.some.injEq, Prod.mk.injEq] at h
          rw [← h.1]
          exact (egGo_out lib w fuel cfg hb _ _ _ _ _ hgo).trans rfl
      · split at h
        · simp at h
        · rename_i st2 e2 hrepo
          simp only [Option.some.injEq, Prod.mk.injEq] at h
          rw [← h.1]
          exact (scanRepo_out lib w fuel _ cfg hb _ _ _ hrepo).trans rfl
        · rename_i st2 hrepo
          simp only [Option.some.injEq, Prod.mk.injEq] at h
          rw [← h.1]
          exact (scanRepo_out lib w fuel _ cfg hb _ _ _ hrepo).trans rfl
    · split at h
      · simp only at h
        split at h
        · split at h
          · simp at h
          · rename_i st2 g2 hgo
            simp only [Option.some.injEq, Prod.mk.injEq] at h
            rw [← h.1]
            exact (egGo_out lib w fuel cfg hb _ _ _ _ _ hgo).trans rfl
        · split at h
          · simp at h
          · rename_i st2 e2 hfile
            simp only [Option.some.injEq, Prod.mk.injEq] at h
            rw [← h.1]
            exact (inspectFile_out lib w fuel _ cfg hb _ _ _ hfile).trans rfl
          · rename_i st2 hfile
            simp only [Option.some.injEq, Prod.mk.injEq] at h
            rw [← h.1]
            exact (inspectFile_out lib w fuel _ cfg hb _ _ _ hfile).trans rfl
      · simp only [Option.some.injEq, Prod.mk.injEq] at h; rw [← h.1]

theorem WalkDir_out (lib : Lib) (w : World) (fuel : Nat) (cfg : Config)
    (hb : (cfg.Stream && !cfg.OutputJSON) = false) (events : List WalkEvent) :
    ∀ (g g1 : Group) (st st1 : ScanState) (e : Option GoError),
      WalkDir lib w fuel cfg events g st = some (st1, g1, e) → st1.out = st.out := by
  induction events with
  | nil =>
    intro g g1 st st1 e h
    simp only [WalkDir, Option.some.injEq, Prod.mk.injEq] at h
    rw [← h.1]
  | cons ev evs ih =>
    intro g g1 st st1 e h
    unfold WalkDir at h
    split at h
    · simp at h
    · rename_i st2 g2 e2 hfn
      simp only [Option.some.injEq, Prod.mk.injEq] at h
      rw [← h.1]
      exact walkFn_out lib w fuel cfg hb ev _ _ _ _ _ hfn
    · rename_i st2 g2 r2 hne hfn
      exact ((ih _ _ _ _ _ h).trans (walkFn_out lib w fuel cfg hb ev _ _ _ _ _ hfn)).trans rfl

/-! ## Theorems: internal/scan/git.go, the branch filter -/

theorem hasPrefix_iff (s sub : GoString) : HasPrefix s sub = true ↔ sub <+: s := by
  simp [HasPrefix, List.isPrefixOf_iff_prefix]

/-- The search `Contains` finds exactly the contiguous sublists. -/
theorem contains_iff (s sub : GoString) : Contains s sub = true ↔ sub <:+: s := by
  induction s with
  | nil =>
    simp only [Contains, hasPrefix_iff]
    constructor
    · intro h; exact h.isInfix
    · intro h
      have : sub = [] := List.eq_nil_of_infix_nil h
      subst this; exact List.prefix_refl _
  | cons c s ih =>
    simp only [Contains, Bool.or_eq_true, hasPrefix_iff, ih, List.infix_cons_iff]

theorem branchMatchesLoop_iff (lb : GoString) (words : List GoString) :
    branchMatchesLoop lb words = true ↔ ∃ w, w ∈ words ∧ w <:+: lb := by
  induction words with
  | nil => simp [branchMatchesLoop]
  | cons w ws ih =>
    simp only [branchMatchesLoop, List.mem_cons]
    by_cases h : Contains lb w = true
    · simp only [h, if_true, true_iff]
      exact ⟨w, Or.inl rfl, (contains_iff lb w).1 h⟩
    · simp only [h, Bool.false_eq_true, if_false, ih]
      constructor
      · rintro ⟨x, hx, hin⟩; exact ⟨x, Or.inr hx, hin⟩
      · rintro ⟨x, hx | hx, hin⟩
        · subst hx; exact absurd ((contains_iff lb x).2 hin) h
        · exact ⟨x, hx, hin⟩

theorem branchMatches_iff (lib : Lib) (branch : GoString) (words : List GoString) :
    branchMatches lib branch words = true ↔
      words = [] ∨ ∃ w, w ∈ words ∧ w <:+: ToLower lib branch := by
  unfold branchMatches
  cases words with
  | nil => simp
  | cons w ws =>
    simp only [List.length_cons, Nat.add_one_ne_zero, if_false, branchMatchesLoop_iff]
    simp

theorem addHit_scanned (st st1 : ScanState) (hit : GoString) (h : st.addHit hit = some st1) :
    st1.scanned = st.scanned ∧ st1.inflight = st.inflight := by
  unfold ScanState.addHit at h
  split at h
  · simp only [Option.some.injEq] at h; subst h; exact ⟨rfl, rfl⟩
  · simp at h

theorem release_scanned (st st1 : ScanState) (h : st.release = some st1) :
    st1.scanned = st.scanned ∧ st1.inflight = st.inflight := by
  unfold ScanState.release at h
  split at h
  · simp only [Option.some.injEq] at h; subst h; exact ⟨rfl, rfl⟩
  · simp at h

theorem scanBranchLoop_scanned (lib : Lib) (w : World) (fuel : Nat) (repo branch : GoString)
    (cfg : Config) (paths : List GoString) :
    ∀ (st st1 : ScanState), scanBranchLoop lib w fuel repo branch cfg paths st = some st1 →
      st1.scanned = st.scanned ∧ st1.inflight = st.inflight := by
  induction paths with
  | nil =>
    intro st st1 h
    simp only [scanBranchLoop, Option.some.injEq] at h
    subst h; exact ⟨rfl, rfl⟩
  | cons p ps ih =>
    intro st st1 h
    unfold scanBranchLoop at h
    split at h
    · exact (fun x => ⟨x.1.trans rfl, x.2.trans rfl⟩) (ih _ _ h)
    · split at h
      · exact (fun x => ⟨x.1.trans rfl, x.2.trans rfl⟩) (ih _ _ h)
      · split at h
        · simp at h
        · exact (fun x => ⟨x.1.trans rfl, x.2.trans rfl⟩) (ih _ _ h)
        · simp only at h
          split at h
          · exact (fun x => ⟨x.1.trans rfl, x.2.trans rfl⟩) (ih _ _ h)
          · split at h
            · simp at h
            · rename_i st2 hadd
              have h1 := ih _ _ h
              have h2 := addHit_scanned _ _ _ hadd
              exact ⟨h1.1.trans h2.1, h1.2.trans h2.2⟩

theorem scanBranch_scanned (lib : Lib) (w : World) (fuel : Nat) (repo branch : GoString)
    (cfg : Config) (st st1 : ScanState) (e : Option GoError)
    (h : scanBranch lib w fuel repo branch cfg st = some (st1, e)) :
    st1.scanned = st.scanned ++ [(repo, branch)] ∧ st1.inflight = st.inflight := by
  unfold scanBranch at h
  simp only at h
  split at h
  · simp only [Option.some.injEq, Prod.mk.injEq] at h; rw [← h.1]; exact ⟨rfl, rfl⟩
  · simp only [Option.some.injEq, Prod.mk.injEq] at h; rw [← h.1]; exact ⟨rfl, rfl⟩
  · split at h
    · simp at h
    · rename_i st2 hloop
      simp only [Option.some.injEq, Prod.mk.injEq] at h
      rw [← h.1]
      exact scanBranchLoop_scanned lib w fuel repo branch cfg _ _ _ hloop

theorem branchTask_scanned (lib : Lib) (w : World) (fuel : Nat) (repo branch : GoString)
    (cfg : Config) (st st1 : ScanState) (e : Option GoError)
    (h : branchTask lib w fuel repo branch cfg st = some (st1, e)) :
    st1.scanned = st.scanned ++ [(repo, branch)] ∧ st1.inflight = st.inflight := by
  unfold branchTask at h
  split at h
  · simp at h
  · rename_i st2 e2 hscan
    split at h
    · simp at h
    · rename_i st3 hrel
      simp only [Option.some.injEq, Prod.mk.injEq] at h
      rw [← h.1]
      have h1 := release_scanned _ _ hrel
      have h2 := scanBranch_scanned lib w fuel repo branch cfg _ _ _ hscan
      exact ⟨h1.1.trans h2.1, h1.2.trans h2.2⟩

theorem waitBranches_scanned (lib : Lib) (w : World) (fuel : Nat) (repo : GoString)
    (cfg : Config) (pending : List GoString) :
    ∀ (err : Option GoError) (st st1 : ScanState) (e : Option GoError),
      waitBranches lib w fuel repo cfg pending err st = some (st1, e) →
      st1.scanned = st.scanned ++ pending.map (fun b => (repo, b)) ∧
        st1.inflight = st.inflight := by
  induction pending with
  | nil =>
    intro err st st1 e h
    simp only [waitBranches, Option.some.injEq, Prod.mk.injEq] at h
    rw [← h.1]; simp
  | cons br rest ih =>
    intro err st st1 e h
    unfold waitBranches at h
    split at h
    · simp at h
    · rename_i st2 e2 htask
      have h1 := ih _ _ _ _ h
      have h2 := branchTask_scanned lib w fuel repo br cfg _ _ _ htask
      refine ⟨?_, h1.2.trans h2.2⟩
      rw [h1.1, h2.1]; simp

/-- The loop of `scanRepo` calls `scanBranch`, and starts goroutines that will,
only for branches of its list that pass `branchMatches`. -/
theorem scanRepoLoop_scanned (lib : Lib) (w : World) (fuel : Nat) (repo : GoString)
    (cfg : Config) (branches : List GoString) :
    ∀ (pending : List GoString) (err : Option GoError) (st st1 : ScanState)
      (pending1 : List GoString) (err1 ret : Option GoError),
      scanRepoLoop lib w fuel repo cfg branches pending err st = some (st1, pending1, err1, ret) →
      ∃ l p, st1.scanned = st.scanned ++ l.map (fun b => (repo, b)) ∧
        pending1 = pending ++ p ∧ st1.inflight = st.inflight ∧
        ∀ b, b ∈ l ++ p → b ∈ branches ∧ branchMatches lib b cfg.BranchWords = true := by
  induction branches with
  | nil =>
    intro pending err st st1 pending1 err1 ret h
    simp only [scanRepoLoop, Option.some.injEq, Prod.mk.injEq] at h
    exact ⟨[], [], by rw [← h.1]; simp, by rw [← h.2.1]; simp, by rw [← h.1], by simp⟩
  | cons br rest ih =>
    intro pending err st st1 pending1 err1 ret h
    unfold scanRepoLoop at h
    split at h
    · obtain ⟨l, p, h1, h2, h3, h4⟩ := ih _ _ _ _ _ _ _ h
      exact ⟨l, p, h1, h2, h3, fun b hb => ⟨List.mem_cons_of_mem _ (h4 b hb).1, (h4 b hb).2⟩⟩
    · rename_i hmatch
      have hm : branchMatches lib br cfg.BranchWords = true := by simpa using hmatch
      simp only at h
      split at h
      · split at h
        · split at h
          · simp at h
          · rename_i st2 e2 htask
            obtain ⟨l, p, h1, h2, h3, h4⟩ := ih _ _ _ _ _ _ _ h
            have ht := branchTask_scanned lib w fuel repo br cfg _ _ _ htask
            refine ⟨br :: l, p, ?_, h2, h3.trans ht.2, ?_⟩
            · rw [h1, ht.1]; simp [ScanState.tick]
            · intro b hb
              simp only [List.cons_append, List.mem_cons] at hb
              rcases hb with hb | hb
              · subst hb; exact ⟨List.mem_cons_self _ _, hm⟩
              · exact ⟨List.mem_cons_of_mem _ (h4 b hb).1, (h4 b hb).2⟩
        · obtain ⟨l, p, h1, h2, h3, h4⟩ := ih _ _ _ _ _ _ _ h
          refine ⟨l, br :: p, h1, by rw [h2]; simp, h3, ?_⟩
          intro b hb
          simp only [List.mem_append, List.mem_cons] at hb
          rcases hb with hb | hb | hb
          · exact ⟨List.mem_cons_of_mem _ (h4 b (List.mem_append_left _ hb)).1,
              (h4 b (List.mem_append_left _ hb)).2⟩
          · subst hb; exact ⟨List.mem_cons_self _ _, hm⟩
          · exact ⟨List.mem_cons_of_mem _ (h4 b (List.mem_append_right _ hb)).1,
              (h4 b (List.mem_append_right _ hb)).2⟩
      · split at h
        · simp at h
        · rename_i st2 e2 hscan
          simp only [Option.some.injEq, Prod.mk.injEq] at h
          have hs := scanBranch_scanned lib w fuel repo br cfg _ _ _ hscan
          refine ⟨[br], [], ?_, by rw [← h.2.1]; simp, by rw [← h.1]; exact hs.2, ?_⟩
          · rw [← h.1, hs.1]; simp
          · intro b hb
            simp only [List.append_nil, List.mem_singleton] at hb
            subst hb; exact ⟨List.mem_cons_self _ _, hm⟩
        · rename_i st2 hscan
          obtain ⟨l, p, h1, h2, h3, h4⟩ := ih _ _ _ _ _ _ _ h
          have hs := scanBranch_scanned lib w fuel repo br cfg _ _ _ hscan
          refine ⟨br :: l, p, ?_, h2, h3.trans hs.2, ?_⟩
          · rw [h1, hs.1]; simp
          · intro b hb
            simp only [List.cons_append, List.mem_cons] at hb
            rcases hb with hb | hb
            · subst hb; exact ⟨List.mem_cons_self _ _, hm⟩
            · exact ⟨List.mem_cons_of_mem _ (h4 b hb).1, (h4 b hb).2⟩

/-- What `scanRepo` scans: every call of `scanBranch` it makes, and every
goroutine it leaves in flight, is for a branch `listBranches` returned and
`branchMatches` accepts. -/
theorem scanRepo_scanned (lib : Lib) (w : World) (fuel : Nat) (repo : GoString)
    (cfg : Config) (st st1 : ScanState) (e : Option GoError)
    (h : scanRepo lib w fuel repo cfg st = some (st1, e)) :
    ∃ (l p : List GoString), st1.scanned = st.scanned ++ l.map (fun b => (repo, b)) ∧
      st1.inflight = st.inflight ++ p.map (Task.branch repo) ∧
      ∀ b, b ∈ l ++ p → b ∈ (listBranches w st.clock repo).1 ∧
        branchMatches lib b cfg.BranchWords = true := by
  unfold scanRepo at h
  split at h
  · simp only [Option.some.injEq, Prod.mk.injEq] at h
    exact ⟨[], [], by rw [← h.1]; simp [ScanState.tick], by rw [← h.1]; simp [ScanState.tick],
      by simp⟩
  · rename_i branches hlist
    have hbr : (listBranches w st.clock repo).1 = branches := by rw [hlist]
    rw [hbr]
    split at h
    · simp at h
    · rename_i st2 pending err2 e2 hloop
      simp only [Option.some.injEq, Prod.mk.injEq] at h
      obtain ⟨l, p, h1, h2, h3, h4⟩ := scanRepoLoop_scanned lib w fuel repo cfg _ _ _ _ _ _ _ _ hloop
      simp only [List.nil_append] at h2
      subst h2
      refine ⟨l, pending, ?_, ?_, h4⟩
      · rw [← h.1]; simpa [ScanState.tick] using h1
      · rw [← h.1]; simp only; rw [h3]; rfl
    · rename_i st2 pending err2 hloop
      obtain ⟨l, p, h1, h2, h3, h4⟩ := scanRepoLoop_scanned lib w fuel repo cfg _ _ _ _ _ _ _ _ hloop
      simp only [List.nil_append] at h2
      subst h2
      have hw := waitBranches_scanned lib w fuel repo cfg _ _ _ _ _ h
      refine ⟨l ++ pending, [], ?_, ?_, ?_⟩
      · rw [hw.1, h1]; simp [ScanState.tick]
      · rw [hw.2, h3]; simp [ScanState.tick]
      · intro b hb
        simp only [List.append_nil] at hb
        exact h4 b hb

/-! ## The claims on internal/manifest/yaml.go -/

/-- C2. `equalsFold` at `"é"` (bytes C3 A9) and `"ê"` (bytes C3 AA): the two
strings have the same length and differ in their second byte, which is no
ASCII letter, and `equalsFold` reports them equal, because its `range` loop
visits index 0 only. -/
theorem equalsFold_skips_continuation_bytes :
    stringRange [0xC3, 0xA9] = [0] ∧
    equalsFold [0xC3, 0xA9] [0xC3, 0xAA] = true ∧
    ([0xC3, 0xA9] : GoString).length = ([0xC3, 0xAA] : GoString).length ∧
    ([0xC3, 0xA9] : GoString).map asciiLower ≠ ([0xC3, 0xAA] : GoString).map asciiLower := by
  decide

/-- C1. `Match` on the content `kind: "\u00e9"`, whose one document has the
kind `"é"`, asked for the kind `"ê"` with both wildcards: the content holds
`kind:`, no decoded document has a kind equal to `"ê"` up to the case of ASCII
letters, and `Match` returns true. -/
theorem Match_accepts_unequal_kind :
    Contains
      (ToLower (libOf (fun _ => decoderOf [DecodeResult.doc ⟨[], [0xC3, 0xA9]⟩])) (ascii "kind: \"\\u00e9\"")) (ascii "kind:") = true ∧
    (∀ n m, decoderOf [DecodeResult.doc ⟨[], [0xC3, 0xA9]⟩] n = DecodeResult.doc m →
      ¬ docSatisfies m star star [0xC3, 0xAA]) ∧
    Match (libOf (fun _ => decoderOf [DecodeResult.doc ⟨[], [0xC3, 0xA9]⟩]))
      1 (ascii "kind: \"\\u00e9\"") star star [0xC3, 0xAA] = some true := by
  refine ⟨by decide, ?_, by decide⟩
  intro n m h
  cases n with
  | zero =>
    simp only [decoderOf, List.getD_cons_zero, DecodeResult.doc.injEq] at h
    subst h
    decide
  | succ k => simp [decoderOf] at h

/-- C7. `Match` on the content `kind: "x`, an unterminated quoted scalar: the
content holds `kind:`, every call of `Decode` returns the syntax error and none
returns `io.EOF`, so the loop takes its `continue` branch at every iteration
and no amount of fuel reaches a `return`. -/
theorem Match_no_return_on_persistent_error :
    Contains (ToLower (libOf (fun _ => stuckDecoder)) (ascii "kind: \"x")) (ascii "kind:") = true ∧
    ∀ fuel, Match (libOf (fun _ => stuckDecoder)) fuel (ascii "kind: \"x") star star
      (ascii "Pod") = none := by
  have hc : Contains (ToLower (libOf (fun _ => stuckDecoder)) (ascii "kind: \"x"))
      (ascii "kind:") = true := by decide
  refine ⟨hc, ?_⟩
  intro fuel
  unfold Match
  simp only [hc, Bool.not_true, Bool.false_eq_true, if_false]
  exact MatchLoop_none_of_failed _ _ _ _ (fun _ => rfl) fuel 0

/-- Scenario 1 and scenario 2 of the specification. -/
theorem Match_scenarios :
    Match (libOf (fun _ => decoderOf [DecodeResult.doc ⟨ascii "apps/v1", ascii "Deployment"⟩]))
      2 (ascii "apiVersion: apps/v1\nkind: Deployment\n")
      (ascii "apps") (ascii "v1") (ascii "Deployment") = some true ∧
    Match (libOf (fun _ => decoderOf [DecodeResult.doc ⟨ascii "apps/v1", ascii "Deployment"⟩]))
      2 (ascii "apiVersion: apps/v1\nkind: Deployment\n")
      (ascii "batch") (ascii "v1") (ascii "Deployment") = some false ∧
    Match (libOf (fun _ => decoderOf [DecodeResult.doc ⟨[], ascii "ConfigMap"⟩]))
      2 (ascii "kind: ConfigMap\n") star star (ascii "ConfigMap") = some true := by
  decide

/-! ## The claims on internal/scan -/

/-- C4. `branchMatches(branch, words)` is true exactly when `words` is empty or
the lower-cased branch name contains one of the words as a substring; every
call of `scanBranch` that `scanRepo` makes, and every goroutine it leaves in
flight, is for a branch of the repository that passes this filter; with the
branches `main` and `feature/foo` and the words `["foo"]`, `scanRepo` scans
`feature/foo` only. -/
theorem branchMatches_filter :
    (∀ (lib : Lib) (branch : GoString) (words : List GoString),
      branchMatches lib branch words = true ↔
        words = [] ∨ ∃ w, w ∈ words ∧ w <:+: ToLower lib branch) ∧
    (∀ (lib : Lib) (w : World) (fuel : Nat) (repo : GoString) (cfg : Config)
      (st st1 : ScanState) (e : Option GoError),
      scanRepo lib w fuel repo cfg st = some (st1, e) →
      ∃ (l p : List GoString),
        st1.scanned = st.scanned ++ l.map (fun b => (repo, b)) ∧
        st1.inflight = st.inflight ++ p.map (Task.branch repo) ∧
        ∀ b, b ∈ l ++ p → b ∈ (listBranches w st.clock repo).1 ∧
          branchMatches lib b cfg.BranchWords = true) ∧
    (listBranches (scenarioWorld false) 0 (ascii "repo")).1 =
      [ascii "main", ascii "feature/foo"] ∧
    (scanRepo scenarioLib (scenarioWorld false) 3 (ascii "repo")
        (scenarioConfig [ascii "foo"] true)
        { out := [], res := none, sem := NewSemaphore 4, clock := 0, scanned := [],
          inflight := [] }).map (fun r => (r.1.scanned, r.1.inflight, r.2)) =
      some ([(ascii "repo", ascii "feature/foo")], [], none) := by
  refine ⟨branchMatches_iff, scanRepo_scanned, by decide, by decide⟩

/-- C8. In the buffered regime a run of `Run` that returns the error of the
walk or the error of the join has written nothing to `out`; whatever it has
written, it wrote after the join, on the path without such an error;
`inspectFile` and `scanBranch` leave `out` as it is. -/
theorem Run_buffered_error_writes_nothing (lib : Lib) (w : World) (fuel : Nat)
    (events : List WalkEvent) (cfg : Config)
    (hbuf : cfg.Stream = false ∨ cfg.OutputJSON = true)
    (r : RunResult) (hrun : Run lib w fuel events cfg = some r) :
    (((∃ e, r.err = some (RunError.walk e)) ∨ (∃ e, r.err = some (RunError.wait e))) →
      r.out = []) ∧
    (r.out ≠ [] → r.joined = true ∧
      (r.err = none ∨ ∃ e, r.err = some (RunError.encode e))) ∧
    (∀ path st st1 e, inspectFile lib w fuel path cfg st = some (st1, e) → st1.out = st.out) ∧
    (∀ repo branch st st1 e,
      scanBranch lib w fuel repo branch cfg st = some (st1, e) → st1.out = st.out) := by
  have hb : (cfg.Stream && !cfg.OutputJSON) = false := by
    rcases hbuf with h | h <;> simp [h]
  have key : (r.err = none ∨ ∃ e, r.err = some (RunError.encode e)) ∧ r.joined = true ∨
      r.out = [] := by
    unfold Run at hrun
    simp only at hrun
    split at hrun
    · simp at hrun
    · rename_i st1 g e hwalk
      simp only [Option.some.injEq] at hrun
      right
      rw [← hrun]
      exact (WalkDir_out lib w fuel cfg hb events _ _ _ _ _ hwalk).trans rfl
    · rename_i st1 g hwalk
      split at hrun
      · simp at hrun
      · rename_i st2 e hwait
        simp only [Option.some.injEq] at hrun
        right
        rw [← hrun]
        exact ((egWait_out lib w fuel cfg hb _ _ _ _ _ hwait).trans
          (WalkDir_out lib w fuel cfg hb events _ _ _ _ _ hwalk)).trans rfl
      · split at hrun
        · split at hrun
          · simp only [Option.some.injEq] at hrun
            left
            rw [← hrun]
            refine ⟨?_, rfl⟩
            cases hEnc : w.encodeErr _ with
            | none => left; simp [hEnc]
            | some x => right; exact ⟨x, by simp [hEnc]⟩
          · simp only [Option.some.injEq] at hrun
            left; rw [← hrun]; exact ⟨Or.inl rfl, rfl⟩
        · simp only [Option.some.injEq] at hrun
          left; rw [← hrun]; exact ⟨Or.inl rfl, rfl⟩
  refine ⟨?_, ?_, ?_, ?_⟩
  · intro herr
    rcases key with ⟨h1, _⟩ | h
    · rcases herr with ⟨e, he⟩ | ⟨e, he⟩ <;> rcases h1 with h1 | ⟨x, h1⟩ <;>
        rw [he] at h1 <;> simp at h1
    · exact h
  · intro hout
    rcases key with ⟨h1, h2⟩ | h
    · exact ⟨h2, h1⟩
    · exact absurd h hout
  · intro path st st1 e h
    exact inspectFile_out lib w fuel path cfg hb st st1 e h
  · intro repo branch st st1 e h
    exact scanBranch_out lib w fuel repo branch cfg hb st st1 e h

/-- C8 at a concrete run in the buffered regime: the goroutine that inspects
`root/a.yaml` has put its record into the bucket when the walk fails on the
directory `root/b`; `Run` returns the error of the walk and nothing has been
written. -/
theorem Run_buffered_error_witness :
    Run scenarioLib (scenarioWorld true) 3 failingWalk (scenarioConfig [] false) =
      some { out := [], err := some (RunError.walk (GoError.other "permission denied")),
             joined := false, inflight := [], records := some [ascii "root/a.yaml"],
             scanned := [] } ∧
    ({ out := [], err := some (RunError.walk (GoError.other "permission denied")),
       joined := false, inflight := [], records := some [ascii "root/a.yaml"],
       scanned := [] } : RunResult).out = [] :=
  ⟨by decide,
   (Run_buffered_error_writes_nothing scenarioLib (scenarioWorld true) 3 failingWalk
      (scenarioConfig [] false) (Or.inl rfl) _ (by decide)).1 (Or.inl ⟨_, rfl⟩)⟩

/-- C9. A run of `Run` in which the goroutine inspecting `root/a.yaml` is still
in flight when the walk fails on the directory `root/b`: `Run` returns the
error of the walk by the `return err` that follows `filepath.WalkDir`, without
having called `eg.Wait()`, and the goroutine it started has not finished. -/
theorem Run_returns_before_join :
    Run scenarioLib (scenarioWorld false) 3 failingWalk (scenarioConfig [] true) =
      some { out := [], err := some (RunError.walk (GoError.other "permission denied")),
             joined := false, inflight := [Task.file (ascii "root/a.yaml")],
             records := none, scanned := [] } := by
  decide

/-! ## The claim on internal/config/config.go -/

/-- C10. The names `ParseFlags` defines are not pairwise distinct: `version` is
the name of the flag for the API version and of the flag that prints the
version.  The second definition finds the name defined, so for every command
line `ParseFlags` ends in the panic `flag redefined: version` and returns
neither a `Config` nor an error. -/
theorem ParseFlags_panics_on_redefined_flag :
    ¬ flagNames.Nodup ∧
    flagNames.count (ascii "version") = 2 ∧
    ∀ (lib : Lib) (fw : FlagWorld) (args : List GoString),
      ParseFlags lib fw args = (ParseOutcome.panic (FlagPanic.redefined (ascii "version")), []) := by
  refine ⟨by decide, by decide, ?_⟩
  intro lib fw args
  have h : registerFlags = Except.error (FlagPanic.redefined (ascii "version")) := rfl
  simp only [ParseFlags, h]

end Findkind
